import Mathlib

/-!
Verification of the balance engine of the baantlo shared-expense ledger
(`apps/backend/app/services/balance.py`).

The embedding below models the two pure computations of the service:

* `calculate_group_balances` — the ledger aggregator producing one net
  balance per user of a group (the database tables appear as in-memory
  lists, each SQL query as the corresponding filter/join/group-by over
  them; the Redis cache layer is bypassed exactly as on a cache miss);
* `simplify_debts` — the greedy largest-first debt simplifier;
* `calculate_user_net_balance` — the per-user aggregate across groups.

Monetary values (`Decimal` in the source) are modelled as rationals `ℚ`.
-/

namespace Baantlo

/-- Row of the `users` table (only the columns the service reads). -/
structure User where
  id : String
  display_name : Option String
  email : Option String
deriving DecidableEq, Repr

/-- Row of the `group_members` table, with its `user` relationship loaded. -/
structure GroupMember where
  group_id : String
  user_id : String
  status : String
  user : User
deriving DecidableEq, Repr

/-- Row of the `expenses` table; `deleted_at = none` means not soft-deleted. -/
structure Expense where
  id : String
  group_id : String
  payer_id : String
  amount_inr : ℚ
  deleted_at : Option String
deriving DecidableEq, Repr

/-- Row of the `expense_splits` table. -/
structure ExpenseSplit where
  expense_id : String
  user_id : String
  amount_inr : ℚ
deriving DecidableEq, Repr

/-- Row of the `settlements` table. -/
structure Settlement where
  group_id : String
  from_user_id : String
  to_user_id : String
  amount_inr : ℚ
  status : String
deriving DecidableEq, Repr

/-- Output schema `BalanceResponse` of the aggregator. -/
structure BalanceResponse where
  user_id : String
  user_name : String
  balance_inr : ℚ
  balance_currency : ℚ
  currency : String
deriving DecidableEq, Repr

/-- Output schema `DebtSimplification` of the simplifier. -/
structure DebtSimplification where
  from_user_id : String
  from_user_name : String
  to_user_id : String
  to_user_name : String
  amount : ℚ
  currency : String
deriving DecidableEq, Repr

/-- Python's `a or b` for an optional string `a`: `None` and `""` are falsy. -/
def pyStrOr (a : Option String) (b : String) : String :=
  match a with
  | none => b
  | some s => if s = "" then b else s

/-- Sum of `f` over a list (`ℚ`-valued). -/
def sumBy (l : List α) (f : α → ℚ) : ℚ := (l.map f).sum

/-- The active members of a group: `GroupMember.group_id == group_id`,
`GroupMember.status == "active"`. -/
def activeMembers (gid : String) (members : List GroupMember) : List GroupMember :=
  members.filter (fun m => m.group_id = gid ∧ m.status = "active")

/-- The group's non-deleted expenses: `Expense.group_id == group_id`,
`Expense.deleted_at.is_(None)`. -/
def filteredExpenses (gid : String) (expenses : List Expense) : List Expense :=
  expenses.filter (fun e => e.group_id = gid ∧ e.deleted_at = none)

/-- `payer_totals[uid]`: sum of `amount_inr` of the group's non-deleted
expenses grouped by `payer_id` (0 for a payer with no row). -/
def payerTotal (gid : String) (expenses : List Expense) (uid : String) : ℚ :=
  sumBy ((filteredExpenses gid expenses).filter (fun e => e.payer_id = uid))
    (fun e => e.amount_inr)

/-- The SQL join `expense_splits JOIN expenses ON expenses.id =
expense_splits.expense_id` restricted to the group's non-deleted expenses;
each joined row is reduced to the pair `(user_id, amount_inr)` of the split. -/
def joinedSplits (gid : String) (expenses : List Expense) (splits : List ExpenseSplit) :
    List (String × ℚ) :=
  splits.flatMap (fun s =>
    ((filteredExpenses gid expenses).filter (fun e => e.id = s.expense_id)).map
      (fun _ => (s.user_id, s.amount_inr)))

/-- `split_totals[uid]`: the joined split rows grouped by `user_id`. -/
def splitTotal (gid : String) (expenses : List Expense) (splits : List ExpenseSplit)
    (uid : String) : ℚ :=
  sumBy ((joinedSplits gid expenses splits).filter (fun p => p.1 = uid)) (fun p => p.2)

/-- The group's completed settlements: `Settlement.group_id == group_id`,
`Settlement.status == "completed"`. -/
def completedSettlements (gid : String) (settlements : List Settlement) : List Settlement :=
  settlements.filter (fun st => st.group_id = gid ∧ st.status = "completed")

/-- `settlement_outgoing[uid]`: completed settlements grouped by `from_user_id`. -/
def settlementOutgoing (gid : String) (settlements : List Settlement) (uid : String) : ℚ :=
  sumBy ((completedSettlements gid settlements).filter (fun st => st.from_user_id = uid))
    (fun st => st.amount_inr)

/-- `settlement_incoming[uid]`: completed settlements grouped by `to_user_id`. -/
def settlementIncoming (gid : String) (settlements : List Settlement) (uid : String) : ℚ :=
  sumBy ((completedSettlements gid settlements).filter (fun st => st.to_user_id = uid))
    (fun st => st.amount_inr)

/-- `all_user_ids`: every user id referenced by the aggregates — active
members, payers of non-deleted expenses, split users of joined rows, and
both parties of completed settlements (`set` union in the source). -/
def allUserIds (gid : String) (members : List GroupMember) (expenses : List Expense)
    (splits : List ExpenseSplit) (settlements : List Settlement) : List String :=
  ((activeMembers gid members).map (fun m => m.user_id)
    ++ (filteredExpenses gid expenses).map (fun e => e.payer_id)
    ++ (joinedSplits gid expenses splits).map (fun p => p.1)
    ++ (completedSettlements gid settlements).map (fun st => st.from_user_id)
    ++ (completedSettlements gid settlements).map (fun st => st.to_user_id)).dedup

/-- The net balance of one user: `+ payer_totals - split_totals +
settlement_outgoing - settlement_incoming` (the four accumulation loops of
the source over the `defaultdict`). -/
def balanceOf (gid : String) (expenses : List Expense) (splits : List ExpenseSplit)
    (settlements : List Settlement) (uid : String) : ℚ :=
  payerTotal gid expenses uid - splitTotal gid expenses splits uid
    + settlementOutgoing gid settlements uid - settlementIncoming gid settlements uid

/-- Display name cached for an active member:
`member.user.display_name or member.user.email or member.user_id`. -/
def memberName (m : GroupMember) : String :=
  pyStrOr m.user.display_name (pyStrOr m.user.email m.user_id)

/-- Display name backfilled from the `users` table:
`user.display_name or user.email or user.id`. -/
def userName (u : User) : String :=
  pyStrOr u.display_name (pyStrOr u.email u.id)

/-- `user_names[uid]`: the name of the last active member with this id
(later dict writes win), else the backfilled name from the `users` table,
else the id itself (`setdefault(uid, uid)`). -/
def nameOf (gid : String) (members : List GroupMember) (users : List User)
    (uid : String) : String :=
  match ((activeMembers gid members).filter (fun m => m.user_id = uid)).getLast? with
  | some m => memberName m
  | none =>
    match (users.filter (fun u => u.id = uid)).getLast? with
    | some u => userName u
    | none => uid

/-- `calculate_group_balances` (database path of the source function; the
Redis layer is skipped exactly as on a cache miss): returns `[]` when the
group has no active member, otherwise one `BalanceResponse` per id in
`all_user_ids`. -/
def calculate_group_balances (gid : String) (members : List GroupMember)
    (users : List User) (expenses : List Expense) (splits : List ExpenseSplit)
    (settlements : List Settlement) : List BalanceResponse :=
  if (activeMembers gid members).isEmpty then []
  else
    (allUserIds gid members expenses splits settlements).map (fun uid =>
      { user_id := uid
        user_name := nameOf gid members users uid
        balance_inr := balanceOf gid expenses splits settlements uid
        balance_currency := balanceOf gid expenses splits settlements uid
        currency := "INR" })

/-- A creditor/debtor working entry `(user_id, user_name, amount)` of the
simplifier. -/
abbrev Party := String × String × ℚ

/-- The dust threshold `Decimal("0.01")` of the simplifier. -/
def dust : ℚ := 1 / 100

/-- Stable descending insertion by amount (ties keep earlier elements first). -/
def insertDesc (x : Party) : List Party → List Party
  | [] => [x]
  | y :: ys => if y.2.2 ≤ x.2.2 then x :: y :: ys else y :: insertDesc x ys

/-- Python's stable `sort(key=lambda x: x[2], reverse=True)`. -/
def sortByAmountDesc (l : List Party) : List Party :=
  l.foldr insertDesc []

/-- The creditor list: balances with `balance_inr > 0`, sorted largest first. -/
def creditorsOf (balances : List BalanceResponse) : List Party :=
  sortByAmountDesc ((balances.filter (fun b => 0 < b.balance_inr)).map
    (fun b => (b.user_id, b.user_name, b.balance_inr)))

/-- The debtor list: balances with `balance_inr < 0`, stored as the positive
owed magnitude `-balance_inr`, sorted largest first. -/
def debtorsOf (balances : List BalanceResponse) : List Party :=
  sortByAmountDesc ((balances.filter (fun b => b.balance_inr < 0)).map
    (fun b => (b.user_id, b.user_name, -b.balance_inr)))

/-- One emitted `DebtSimplification` from debtor `d` to creditor `c`. -/
def mkTransfer (d c : Party) (a : ℚ) : DebtSimplification :=
  { from_user_id := d.1
    from_user_name := d.2.1
    to_user_id := c.1
    to_user_name := c.2.1
    amount := a
    currency := "INR" }

/-- The two-cursor greedy loop of `simplify_debts`: match the current
creditor and debtor by `amount = min(...)`, emit the transfer when
`amount > 0.01`, decrement both remainders, advance the creditor cursor when
its remainder drops to `≤ 0.01` and likewise the debtor cursor (when the
creditor remainder stays above the threshold the matched amount was the
debtor's whole remainder, so only the debtor advances). -/
def settleLoop (cre deb : List Party) : List DebtSimplification :=
  match cre, deb with
  | [], _ => []
  | _ :: _, [] => []
  | c :: cs, d :: ds =>
    let a := min c.2.2 d.2.2
    let rest :=
      if c.2.2 - a ≤ dust then
        if d.2.2 - a ≤ dust then settleLoop cs ds
        else settleLoop cs ((d.1, d.2.1, d.2.2 - a) :: ds)
      else settleLoop ((c.1, c.2.1, c.2.2 - a) :: cs) ds
    if dust < a then mkTransfer d c a :: rest else rest
termination_by cre.length + deb.length
decreasing_by all_goals simp +arith

/-- `simplify_debts`: partition, sort, run the greedy loop. -/
def simplify_debts (balances : List BalanceResponse) : List DebtSimplification :=
  settleLoop (creditorsOf balances) (debtorsOf balances)

/-- The source's `while i < len(creditors) and j < len(debtors)` loop verbatim,
with an explicit iteration budget: the two cursor-advance tests are the two
independent `if`s of the source, and `none` means the budget was exhausted
before the loop finished. -/
def settleLoopFuel : Nat → List Party → List Party → Option (List DebtSimplification)
  | _, [], _ => some []
  | _, _ :: _, [] => some []
  | 0, _ :: _, _ :: _ => none
  | n + 1, c :: cs, d :: ds =>
    let a := min c.2.2 d.2.2
    let cre2 := if c.2.2 - a ≤ dust then cs else (c.1, c.2.1, c.2.2 - a) :: cs
    let deb2 := if d.2.2 - a ≤ dust then ds else (d.1, d.2.1, d.2.2 - a) :: ds
    (settleLoopFuel n cre2 deb2).map (fun ts =>
      if dust < a then mkTransfer d c a :: ts else ts)

/-- `simplify_debts` run through the budgeted loop with budget
`len(creditors) + len(debtors)`. -/
def simplify_debts_fueled (balances : List BalanceResponse) :
    Option (List DebtSimplification) :=
  settleLoopFuel ((creditorsOf balances).length + (debtorsOf balances).length)
    (creditorsOf balances) (debtorsOf balances)

/-- The group ids of the user's active memberships. -/
def activeGroupIds (uid : String) (members : List GroupMember) : List String :=
  (members.filter (fun m => m.user_id = uid ∧ m.status = "active")).map
    (fun m => m.group_id)

/-- `calculate_user_net_balance` (database path): `0` when the user has no
active membership, otherwise `total_paid - total_owed + settlements_paid -
settlements_received`, every query restricted to the active groups. -/
def calculate_user_net_balance (uid : String) (members : List GroupMember)
    (expenses : List Expense) (splits : List ExpenseSplit)
    (settlements : List Settlement) : ℚ :=
  let gids := activeGroupIds uid members
  if gids.isEmpty then 0
  else
    sumBy (expenses.filter (fun e =>
        e.payer_id = uid ∧ e.deleted_at = none ∧ e.group_id ∈ gids))
      (fun e => e.amount_inr)
    - sumBy ((splits.filter (fun s => s.user_id = uid)).flatMap (fun s =>
        (expenses.filter (fun e =>
          e.id = s.expense_id ∧ e.deleted_at = none ∧ e.group_id ∈ gids)).map
          (fun _ => s.amount_inr)))
      (fun q => q)
    + sumBy (settlements.filter (fun st =>
        st.from_user_id = uid ∧ st.status = "completed" ∧ st.group_id ∈ gids))
      (fun st => st.amount_inr)
    - sumBy (settlements.filter (fun st =>
        st.to_user_id = uid ∧ st.status = "completed" ∧ st.group_id ∈ gids))
      (fun st => st.amount_inr)

/-! ### Summation helpers -/

theorem sumBy_nil (f : α → ℚ) : sumBy [] f = 0 := rfl

theorem sumBy_cons (x : α) (l : List α) (f : α → ℚ) :
    sumBy (x :: l) f = f x + sumBy l f := by
  simp [sumBy]

theorem sumBy_append (l m : List α) (f : α → ℚ) :
    sumBy (l ++ m) f = sumBy l f + sumBy m f := by
  simp [sumBy]

theorem sumBy_congr {l : List α} {f g : α → ℚ} (h : ∀ x ∈ l, f x = g x) :
    sumBy l f = sumBy l g := by
  induction l with
  | nil => rfl
  | cons x l ih =>
    rw [sumBy_cons, sumBy_cons, h x (List.mem_cons_self x l),
      ih (fun y hy => h y (List.mem_cons_of_mem x hy))]

theorem sumBy_add (l : List α) (f g : α → ℚ) :
    sumBy l (fun x => f x + g x) = sumBy l f + sumBy l g := by
  induction l with
  | nil => simp [sumBy_nil]
  | cons x l ih => rw [sumBy_cons, sumBy_cons, sumBy_cons, ih]; ring

theorem sumBy_sub (l : List α) (f g : α → ℚ) :
    sumBy l (fun x => f x - g x) = sumBy l f - sumBy l g := by
  induction l with
  | nil => simp [sumBy_nil]
  | cons x l ih => rw [sumBy_cons, sumBy_cons, sumBy_cons, ih]; ring

theorem sumBy_eq_zero {l : List α} {f : α → ℚ} (h : ∀ x ∈ l, f x = 0) :
    sumBy l f = 0 := by
  induction l with
  | nil => rfl
  | cons x l ih =>
    rw [sumBy_cons, h x (List.mem_cons_self x l),
      ih (fun y hy => h y (List.mem_cons_of_mem x hy)), add_zero]

theorem sumBy_flatMap (l : List α) (g : α → List β) (f : β → ℚ) :
    sumBy (l.flatMap g) f = sumBy l (fun a => sumBy (g a) f) := by
  induction l with
  | nil => rfl
  | cons x l ih => rw [List.flatMap_cons, sumBy_append, sumBy_cons, ih]

theorem sumBy_map (l : List α) (g : α → β) (f : β → ℚ) :
    sumBy (l.map g) f = sumBy l (fun a => f (g a)) := by
  simp [sumBy, List.map_map, Function.comp_def]

theorem sumBy_comm (l : List α) (m : List β) (h : α → β → ℚ) :
    sumBy l (fun a => sumBy m (fun b => h a b)) =
      sumBy m (fun b => sumBy l (fun a => h a b)) := by
  induction l with
  | nil => rw [sumBy_nil]; exact (sumBy_eq_zero (fun x _ => rfl)).symm
  | cons x l ih =>
    rw [sumBy_cons, ih, ← sumBy_add]
    exact sumBy_congr (fun b _ => (sumBy_cons x l (fun a => h a b)).symm)

theorem sumBy_filter (l : List α) (p : α → Bool) (f : α → ℚ) :
    sumBy (l.filter p) f = sumBy l (fun x => if p x then f x else 0) := by
  induction l with
  | nil => rfl
  | cons x l ih =>
    rw [sumBy_cons]
    by_cases hx : p x
    · rw [List.filter_cons_of_pos hx, sumBy_cons, ih, if_pos hx]
    · rw [List.filter_cons_of_neg hx, ih, if_neg hx, zero_add]

theorem sumBy_nonneg {l : List α} {f : α → ℚ} (h : ∀ x ∈ l, 0 ≤ f x) :
    0 ≤ sumBy l f := by
  induction l with
  | nil => simp [sumBy_nil]
  | cons x l ih =>
    rw [sumBy_cons]
    have := h x (List.mem_cons_self x l)
    have := ih (fun y hy => h y (List.mem_cons_of_mem x hy))
    linarith

theorem sumBy_filter_le (l : List α) (p : α → Bool) {f : α → ℚ}
    (h : ∀ x ∈ l, 0 ≤ f x) : sumBy (l.filter p) f ≤ sumBy l f := by
  rw [sumBy_filter]
  induction l with
  | nil => simp [sumBy_nil]
  | cons x l ih =>
    rw [sumBy_cons, sumBy_cons]
    have h1 := h x (List.mem_cons_self x l)
    have h2 := ih (fun y hy => h y (List.mem_cons_of_mem x hy))
    by_cases hx : p x <;> simp [hx] <;> linarith

theorem sumBy_ite_single {keys : List String} (hnd : keys.Nodup) {k : String}
    (hk : k ∈ keys) (c : ℚ) :
    sumBy keys (fun x => if k = x then c else 0) = c := by
  induction keys with
  | nil => cases hk
  | cons y ys ih =>
    rw [sumBy_cons]
    rcases List.mem_cons.mp hk with h | h
    · subst h
      rw [if_pos rfl]
      have : ∀ x ∈ ys, (if k = x then c else 0) = 0 := by
        intro x hx
        rw [if_neg]
        intro he; exact (List.nodup_cons.mp hnd).1 (he ▸ hx)
      rw [sumBy_eq_zero this, add_zero]
    · rw [ih (List.nodup_cons.mp hnd).2 h, if_neg, zero_add]
      intro he; exact (List.nodup_cons.mp hnd).1 (he ▸ h)

/-- Partitioning a sum over rows by a key ranging over a duplicate-free list
containing every occurring key. -/
theorem sumBy_partition (rows : List α) (key : α → String) {keys : List String}
    (hnd : keys.Nodup) (hmem : ∀ r ∈ rows, key r ∈ keys) (f : α → ℚ) :
    sumBy keys (fun k => sumBy (rows.filter (fun r => key r = k)) f) =
      sumBy rows f := by
  induction rows with
  | nil => exact sumBy_eq_zero (fun x _ => rfl)
  | cons r rows ih =>
    have step : ∀ k : String,
        sumBy ((r :: rows).filter (fun x => key x = k)) f =
          (if key r = k then f r else 0) +
            sumBy (rows.filter (fun x => key x = k)) f := by
      intro k
      by_cases hk : key r = k
      · rw [List.filter_cons_of_pos (by simp [hk]), sumBy_cons, if_pos hk]
      · rw [List.filter_cons_of_neg (by simp [hk]), if_neg hk, zero_add]
    calc sumBy keys (fun k => sumBy ((r :: rows).filter (fun x => key x = k)) f)
        = sumBy keys (fun k => (if key r = k then f r else 0) +
            sumBy (rows.filter (fun x => key x = k)) f) :=
          sumBy_congr (fun k _ => step k)
      _ = sumBy keys (fun k => if key r = k then f r else 0) +
            sumBy keys (fun k => sumBy (rows.filter (fun x => key x = k)) f) :=
          sumBy_add keys _ _
      _ = f r + sumBy rows f := by
          rw [sumBy_ite_single hnd (hmem r (List.mem_cons_self r rows)),
            ih (fun x hx => hmem x (List.mem_cons_of_mem r hx))]
      _ = sumBy (r :: rows) f := (sumBy_cons r rows f).symm

theorem sumBy_perm {l m : List α} (h : l.Perm m) (f : α → ℚ) :
    sumBy l f = sumBy m f :=
  (h.map f).sum_eq

/-! ### Sorting helpers -/

theorem insertDesc_perm (x : Party) (l : List Party) :
    (insertDesc x l).Perm (x :: l) := by
  induction l with
  | nil => exact List.Perm.refl _
  | cons y ys ih =>
    rw [insertDesc]
    by_cases h : y.2.2 ≤ x.2.2
    · rw [if_pos h]
    · rw [if_neg h]
      exact (ih.cons y).trans (List.Perm.swap x y ys)

theorem sortByAmountDesc_perm (l : List Party) :
    (sortByAmountDesc l).Perm l := by
  induction l with
  | nil => exact List.Perm.refl _
  | cons x xs ih =>
    rw [sortByAmountDesc, List.foldr_cons]
    exact (insertDesc_perm x _).trans (ih.cons x)

theorem sortByAmountDesc_length (l : List Party) :
    (sortByAmountDesc l).length = l.length :=
  (sortByAmountDesc_perm l).length_eq

/-! ### Loop equivalence: the budgeted loop agrees with `settleLoop` -/

theorem dust_pos : (0 : ℚ) < dust := by norm_num [dust]

/-- At every match, at least one of the two remainders drops to `0 ≤ 0.01`. -/
theorem min_side_dust (q w : ℚ) :
    q - min q w ≤ dust ∨ w - min q w ≤ dust := by
  rcases min_choice q w with h | h
  · left; rw [h, sub_self]; exact le_of_lt dust_pos
  · right; rw [h, sub_self]; exact le_of_lt dust_pos

theorem settleLoopFuel_complete :
    ∀ (n : Nat) (cre deb : List Party), cre.length + deb.length ≤ n →
      settleLoopFuel n cre deb = some (settleLoop cre deb) := by
  intro n
  induction n with
  | zero =>
    intro cre deb hlen
    match cre, deb with
    | [], deb => rw [settleLoopFuel, settleLoop]
    | c :: cs, [] => rw [settleLoopFuel, settleLoop]
  | succ n ih =>
    intro cre deb hlen
    match cre, deb with
    | [], deb => rw [settleLoopFuel, settleLoop]
    | c :: cs, [] => rw [settleLoopFuel, settleLoop]
    | c :: cs, d :: ds =>
      rw [settleLoopFuel, settleLoop]
      by_cases hc : c.2.2 - min c.2.2 d.2.2 ≤ dust
      · by_cases hd : d.2.2 - min c.2.2 d.2.2 ≤ dust
        · rw [if_pos hc, if_pos hd, if_pos hc, if_pos hd,
            ih cs ds (by simp at hlen ⊢; omega)]
          rfl
        · rw [if_pos hc, if_neg hd, if_pos hc, if_neg hd,
            ih cs ((d.1, d.2.1, d.2.2 - min c.2.2 d.2.2) :: ds)
              (by simp at hlen ⊢; omega)]
          rfl
      · have hd : d.2.2 - min c.2.2 d.2.2 ≤ dust :=
          (min_side_dust c.2.2 d.2.2).resolve_left hc
        rw [if_neg hc, if_pos hd, if_neg hc,
          ih ((c.1, c.2.1, c.2.2 - min c.2.2 d.2.2) :: cs) ds
            (by simp at hlen ⊢; omega)]
        rfl

/-- Evaluate `settleLoop` through the budgeted loop. -/
theorem settleLoop_eval {cre deb : List Party} {ts : List DebtSimplification}
    (h : settleLoopFuel (cre.length + deb.length) cre deb = some ts) :
    settleLoop cre deb = ts := by
  have h2 := settleLoopFuel_complete (cre.length + deb.length) cre deb le_rfl
  rw [h] at h2
  exact (Option.some.inj h2).symm

/-- Evaluate `simplify_debts` through the budgeted loop. -/
theorem simplify_debts_eval {balances : List BalanceResponse}
    {ts : List DebtSimplification}
    (h : simplify_debts_fueled balances = some ts) :
    simplify_debts balances = ts := by
  rw [simplify_debts]
  exact settleLoop_eval h

/-! ### Per-user transfer sums -/

/-- Total amount transferred to `uid` (as creditor) by a transfer list. -/
def inSum (ts : List DebtSimplification) (uid : String) : ℚ :=
  sumBy (ts.filter (fun t => t.to_user_id = uid)) (fun t => t.amount)

/-- Total amount transferred from `uid` (as debtor) by a transfer list. -/
def outSum (ts : List DebtSimplification) (uid : String) : ℚ :=
  sumBy (ts.filter (fun t => t.from_user_id = uid)) (fun t => t.amount)

/-- Total amount carried by entries of `uid` in a creditor/debtor list. -/
def partyTotal (l : List Party) (uid : String) : ℚ :=
  sumBy (l.filter (fun p => p.1 = uid)) (fun p => p.2.2)

/-- Total amount carried by a creditor/debtor list. -/
def amountSum (l : List Party) : ℚ := sumBy l (fun p => p.2.2)

/-- Modelled from the spec: the net position of a user after applying every
transfer of `ts` to the balances `bs` — the user's balance, plus every
amount the user pays as `from_user` (reducing an owed, negative balance
toward zero), minus every amount received as `to_user`. -/
def netAfter (bs : List BalanceResponse) (ts : List DebtSimplification)
    (uid : String) : ℚ :=
  sumBy (bs.filter (fun b => b.user_id = uid)) (fun b => b.balance_inr)
    + outSum ts uid - inSum ts uid

theorem inSum_nil (u : String) : inSum [] u = 0 := rfl

theorem outSum_nil (u : String) : outSum [] u = 0 := rfl

theorem inSum_cons (t : DebtSimplification) (ts : List DebtSimplification)
    (u : String) :
    inSum (t :: ts) u = (if t.to_user_id = u then t.amount else 0) + inSum ts u := by
  unfold inSum
  by_cases h : t.to_user_id = u
  · rw [List.filter_cons_of_pos (by simp [h]), sumBy_cons, if_pos h]
  · rw [List.filter_cons_of_neg (by simp [h]), if_neg h, zero_add]

theorem outSum_cons (t : DebtSimplification) (ts : List DebtSimplification)
    (u : String) :
    outSum (t :: ts) u = (if t.from_user_id = u then t.amount else 0) + outSum ts u := by
  unfold outSum
  by_cases h : t.from_user_id = u
  · rw [List.filter_cons_of_pos (by simp [h]), sumBy_cons, if_pos h]
  · rw [List.filter_cons_of_neg (by simp [h]), if_neg h, zero_add]

theorem partyTotal_nil (u : String) : partyTotal [] u = 0 := rfl

theorem partyTotal_cons (p : Party) (l : List Party) (u : String) :
    partyTotal (p :: l) u = (if p.1 = u then p.2.2 else 0) + partyTotal l u := by
  unfold partyTotal
  by_cases h : p.1 = u
  · rw [List.filter_cons_of_pos (by simp [h]), sumBy_cons, if_pos h]
  · rw [List.filter_cons_of_neg (by simp [h]), if_neg h, zero_add]

theorem amountSum_nil : amountSum [] = 0 := rfl

theorem amountSum_cons (p : Party) (l : List Party) :
    amountSum (p :: l) = p.2.2 + amountSum l :=
  sumBy_cons p l _

theorem partyTotal_nonneg {l : List Party} (h : ∀ p ∈ l, 0 ≤ p.2.2)
    (u : String) : 0 ≤ partyTotal l u :=
  sumBy_nonneg (fun p hp => h p (List.mem_of_mem_filter hp))

theorem partyTotal_le_amountSum {l : List Party} (h : ∀ p ∈ l, 0 ≤ p.2.2)
    (u : String) : partyTotal l u ≤ amountSum l :=
  sumBy_filter_le l _ h

theorem inSum_nonneg {ts : List DebtSimplification}
    (h : ∀ t ∈ ts, 0 ≤ t.amount) (u : String) : 0 ≤ inSum ts u :=
  sumBy_nonneg (fun t ht => h t (List.mem_of_mem_filter ht))

theorem outSum_nonneg {ts : List DebtSimplification}
    (h : ∀ t ∈ ts, 0 ≤ t.amount) (u : String) : 0 ≤ outSum ts u :=
  sumBy_nonneg (fun t ht => h t (List.mem_of_mem_filter ht))

/-- One unfolding step of the budgeted loop on two non-empty lists. -/
theorem settleLoopFuel_succ (n : Nat) (c d : Party) (cs ds : List Party) :
    settleLoopFuel (n + 1) (c :: cs) (d :: ds) =
      (settleLoopFuel n
        (if c.2.2 - min c.2.2 d.2.2 ≤ dust then cs
          else (c.1, c.2.1, c.2.2 - min c.2.2 d.2.2) :: cs)
        (if d.2.2 - min c.2.2 d.2.2 ≤ dust then ds
          else (d.1, d.2.1, d.2.2 - min c.2.2 d.2.2) :: ds)).map
        (fun ts =>
          if dust < min c.2.2 d.2.2 then
            mkTransfer d c (min c.2.2 d.2.2) :: ts
          else ts) := rfl

/-- Every transfer the loop emits exceeds the dust threshold. -/
theorem fuel_dust_lt :
    ∀ (n : Nat) (cre deb : List Party) (ts : List DebtSimplification),
      settleLoopFuel n cre deb = some ts → ∀ t ∈ ts, dust < t.amount := by
  intro n
  induction n with
  | zero =>
    intro cre deb ts h t ht
    match cre, deb with
    | [], _ => injection h with h2; subst h2; cases ht
    | _ :: _, [] => injection h with h2; subst h2; cases ht
    | _ :: _, _ :: _ => exact Option.noConfusion h
  | succ n ih =>
    intro cre deb ts h t ht
    match cre, deb with
    | [], _ => injection h with h2; subst h2; cases ht
    | _ :: _, [] => injection h with h2; subst h2; cases ht
    | c :: cs, d :: ds =>
      rw [settleLoopFuel_succ] at h
      rcases Option.map_eq_some'.mp h with ⟨ts', hts', rfl⟩
      by_cases he : dust < min c.2.2 d.2.2
      · rw [if_pos he] at ht
        rcases List.mem_cons.mp ht with rfl | ht'
        · exact he
        · exact ih _ _ _ hts' t ht'
      · rw [if_neg he] at ht
        exact ih _ _ _ hts' t ht

/-- Every transfer points from a debtor id to a creditor id of the input. -/
theorem fuel_ids :
    ∀ (n : Nat) (cre deb : List Party) (ts : List DebtSimplification),
      settleLoopFuel n cre deb = some ts →
      ∀ t ∈ ts, t.to_user_id ∈ cre.map (fun p => p.1) ∧
        t.from_user_id ∈ deb.map (fun p => p.1) := by
  intro n
  induction n with
  | zero =>
    intro cre deb ts h t ht
    match cre, deb with
    | [], _ => injection h with h2; subst h2; cases ht
    | _ :: _, [] => injection h with h2; subst h2; cases ht
    | _ :: _, _ :: _ => exact Option.noConfusion h
  | succ n ih =>
    intro cre deb ts h t ht
    match cre, deb with
    | [], _ => injection h with h2; subst h2; cases ht
    | _ :: _, [] => injection h with h2; subst h2; cases ht
    | c :: cs, d :: ds =>
      rw [settleLoopFuel_succ] at h
      rcases Option.map_eq_some'.mp h with ⟨ts', hts', rfl⟩
      have hsub : ∀ t' ∈ ts', t'.to_user_id ∈ (c :: cs).map (fun p => p.1) ∧
          t'.from_user_id ∈ (d :: ds).map (fun p => p.1) := by
        intro t' ht'
        have h2 := ih _ _ _ hts' t' ht'
        constructor
        · rcases h2.1 with h3
          by_cases hcc : c.2.2 - min c.2.2 d.2.2 ≤ dust
          · rw [if_pos hcc] at h3
            exact List.mem_cons_of_mem _ h3
          · rw [if_neg hcc] at h3
            simpa using h3
        · rcases h2.2 with h3
          by_cases hdd : d.2.2 - min c.2.2 d.2.2 ≤ dust
          · rw [if_pos hdd] at h3
            exact List.mem_cons_of_mem _ h3
          · rw [if_neg hdd] at h3
            simpa using h3
      by_cases he : dust < min c.2.2 d.2.2
      · rw [if_pos he] at ht
        rcases List.mem_cons.mp ht with rfl | ht'
        · exact ⟨by simp [mkTransfer], by simp [mkTransfer]⟩
        · exact hsub t ht'
      · rw [if_neg he] at ht
        exact hsub t ht

/-- The loop emits at most one transfer per iteration and each iteration
drops at least one entry, so at most `|creditors| + |debtors| - 1` transfers. -/
theorem fuel_length :
    ∀ (n : Nat) (cre deb : List Party) (ts : List DebtSimplification),
      settleLoopFuel n cre deb = some ts →
      ts.length ≤ cre.length + deb.length - 1 := by
  intro n
  induction n with
  | zero =>
    intro cre deb ts h
    match cre, deb with
    | [], _ => injection h with h2; subst h2; exact Nat.zero_le _
    | _ :: _, [] => injection h with h2; subst h2; exact Nat.zero_le _
    | _ :: _, _ :: _ => exact Option.noConfusion h
  | succ n ih =>
    intro cre deb ts h
    match cre, deb with
    | [], _ => injection h with h2; subst h2; exact Nat.zero_le _
    | _ :: _, [] => injection h with h2; subst h2; exact Nat.zero_le _
    | c :: cs, d :: ds =>
      rw [settleLoopFuel_succ] at h
      rcases Option.map_eq_some'.mp h with ⟨ts', hts', rfl⟩
      by_cases hcc : c.2.2 - min c.2.2 d.2.2 ≤ dust
      · by_cases hdd : d.2.2 - min c.2.2 d.2.2 ≤ dust
        · rw [if_pos hcc, if_pos hdd] at hts'
          have hl := ih _ _ _ hts'
          by_cases he : dust < min c.2.2 d.2.2 <;>
            simp only [if_pos, if_neg, he, if_true, if_false,
              List.length_cons] <;> omega
        · rw [if_pos hcc, if_neg hdd] at hts'
          have hl := ih _ _ _ hts'
          simp only [List.length_cons] at hl
          by_cases he : dust < min c.2.2 d.2.2 <;>
            simp only [if_pos, if_neg, he, if_true, if_false,
              List.length_cons] <;> omega
      · have hdd : d.2.2 - min c.2.2 d.2.2 ≤ dust :=
          (min_side_dust c.2.2 d.2.2).resolve_left hcc
        rw [if_neg hcc, if_pos hdd] at hts'
        have hl := ih _ _ _ hts'
        simp only [List.length_cons] at hl
        by_cases he : dust < min c.2.2 d.2.2 <;>
          simp only [if_pos, if_neg, he, if_true, if_false,
            List.length_cons] <;> omega

/-- The loop never transfers more into a creditor than the creditor's total. -/
theorem fuel_inSum_le :
    ∀ (n : Nat) (cre deb : List Party) (ts : List DebtSimplification),
      settleLoopFuel n cre deb = some ts →
      (∀ p ∈ cre, 0 ≤ p.2.2) → (∀ p ∈ deb, 0 ≤ p.2.2) →
      ∀ u, inSum ts u ≤ partyTotal cre u := by
  intro n
  induction n with
  | zero =>
    intro cre deb ts h hcre hdeb u
    match cre, deb with
    | [], _ =>
      injection h with h2; subst h2
      rw [inSum_nil, partyTotal_nil]
    | _ :: _, [] =>
      injection h with h2; subst h2
      rw [inSum_nil]
      exact partyTotal_nonneg hcre u
    | _ :: _, _ :: _ => exact Option.noConfusion h
  | succ n ih =>
    intro cre deb ts h hcre hdeb u
    match cre, deb with
    | [], _ =>
      injection h with h2; subst h2
      rw [inSum_nil, partyTotal_nil]
    | _ :: _, [] =>
      injection h with h2; subst h2
      rw [inSum_nil]
      exact partyTotal_nonneg hcre u
    | c :: cs, d :: ds =>
      rw [settleLoopFuel_succ] at h
      rcases Option.map_eq_some'.mp h with ⟨ts', hts', rfl⟩
      have hq : 0 ≤ c.2.2 := hcre c (List.mem_cons_self c cs)
      have hw : 0 ≤ d.2.2 := hdeb d (List.mem_cons_self d ds)
      have ha0 : 0 ≤ min c.2.2 d.2.2 := le_min hq hw
      have haq : min c.2.2 d.2.2 ≤ c.2.2 := min_le_left _ _
      have hcs : ∀ p ∈ cs, 0 ≤ p.2.2 :=
        fun p hp => hcre p (List.mem_cons_of_mem c hp)
      have hds : ∀ p ∈ ds, 0 ≤ p.2.2 :=
        fun p hp => hdeb p (List.mem_cons_of_mem d hp)
      have hcre2 : ∀ p ∈ (if c.2.2 - min c.2.2 d.2.2 ≤ dust then cs
          else (c.1, c.2.1, c.2.2 - min c.2.2 d.2.2) :: cs), 0 ≤ p.2.2 := by
        by_cases hcc : c.2.2 - min c.2.2 d.2.2 ≤ dust
        · rw [if_pos hcc]; exact hcs
        · rw [if_neg hcc]
          intro p hp
          rcases List.mem_cons.mp hp with rfl | hp2
          · simpa using sub_nonneg.mpr haq
          · exact hcs p hp2
      have hdeb2 : ∀ p ∈ (if d.2.2 - min c.2.2 d.2.2 ≤ dust then ds
          else (d.1, d.2.1, d.2.2 - min c.2.2 d.2.2) :: ds), 0 ≤ p.2.2 := by
        by_cases hdd : d.2.2 - min c.2.2 d.2.2 ≤ dust
        · rw [if_pos hdd]; exact hds
        · rw [if_neg hdd]
          intro p hp
          rcases List.mem_cons.mp hp with rfl | hp2
          · simpa using sub_nonneg.mpr (min_le_right c.2.2 d.2.2)
          · exact hds p hp2
      have hrec := ih _ _ _ hts' hcre2 hdeb2 u
      have hkey : partyTotal (if c.2.2 - min c.2.2 d.2.2 ≤ dust then cs
            else (c.1, c.2.1, c.2.2 - min c.2.2 d.2.2) :: cs) u
          + (if c.1 = u then min c.2.2 d.2.2 else 0) ≤ partyTotal (c :: cs) u := by
        rw [partyTotal_cons]
        by_cases hcc : c.2.2 - min c.2.2 d.2.2 ≤ dust
        · rw [if_pos hcc]
          by_cases hcu : c.1 = u <;> simp [hcu] <;> linarith
        · rw [if_neg hcc, partyTotal_cons]
          by_cases hcu : c.1 = u <;> simp [hcu] <;> linarith
      by_cases he : dust < min c.2.2 d.2.2
      · rw [if_pos he]
        have hic : inSum (mkTransfer d c (min c.2.2 d.2.2) :: ts') u =
            (if c.1 = u then min c.2.2 d.2.2 else 0) + inSum ts' u := by
          rw [inSum_cons]; rfl
        rw [hic]
        linarith [hrec, hkey]
      · rw [if_neg he]
        have hite : (0 : ℚ) ≤ (if c.1 = u then min c.2.2 d.2.2 else 0) := by
          by_cases hcu : c.1 = u <;> simp [hcu, ha0]
        linarith [hrec, hkey]

/-- The loop never transfers more out of a debtor than the debtor's total. -/
theorem fuel_outSum_le :
    ∀ (n : Nat) (cre deb : List Party) (ts : List DebtSimplification),
      settleLoopFuel n cre deb = some ts →
      (∀ p ∈ cre, 0 ≤ p.2.2) → (∀ p ∈ deb, 0 ≤ p.2.2) →
      ∀ u, outSum ts u ≤ partyTotal deb u := by
  intro n
  induction n with
  | zero =>
    intro cre deb ts h hcre hdeb u
    match cre, deb with
    | [], _ =>
      injection h with h2; subst h2
      rw [outSum_nil]
      exact partyTotal_nonneg hdeb u
    | _ :: _, [] =>
      injection h with h2; subst h2
      rw [outSum_nil, partyTotal_nil]
    | _ :: _, _ :: _ => exact Option.noConfusion h
  | succ n ih =>
    intro cre deb ts h hcre hdeb u
    match cre, deb with
    | [], _ =>
      injection h with h2; subst h2
      rw [outSum_nil]
      exact partyTotal_nonneg hdeb u
    | _ :: _, [] =>
      injection h with h2; subst h2
      rw [outSum_nil, partyTotal_nil]
    | c :: cs, d :: ds =>
      rw [settleLoopFuel_succ] at h
      rcases Option.map_eq_some'.mp h with ⟨ts', hts', rfl⟩
      have hq : 0 ≤ c.2.2 := hcre c (List.mem_cons_self c cs)
      have hw : 0 ≤ d.2.2 := hdeb d (List.mem_cons_self d ds)
      have ha0 : 0 ≤ min c.2.2 d.2.2 := le_min hq hw
      have haw : min c.2.2 d.2.2 ≤ d.2.2 := min_le_right _ _
      have hcs : ∀ p ∈ cs, 0 ≤ p.2.2 :=
        fun p hp => hcre p (List.mem_cons_of_mem c hp)
      have hds : ∀ p ∈ ds, 0 ≤ p.2.2 :=
        fun p hp => hdeb p (List.mem_cons_of_mem d hp)
      have hcre2 : ∀ p ∈ (if c.2.2 - min c.2.2 d.2.2 ≤ dust then cs
          else (c.1, c.2.1, c.2.2 - min c.2.2 d.2.2) :: cs), 0 ≤ p.2.2 := by
        by_cases hcc : c.2.2 - min c.2.2 d.2.2 ≤ dust
        · rw [if_pos hcc]; exact hcs
        · rw [if_neg hcc]
          intro p hp
          rcases List.mem_cons.mp hp with rfl | hp2
          · simpa using sub_nonneg.mpr (min_le_left c.2.2 d.2.2)
          · exact hcs p hp2
      have hdeb2 : ∀ p ∈ (if d.2.2 - min c.2.2 d.2.2 ≤ dust then ds
          else (d.1, d.2.1, d.2.2 - min c.2.2 d.2.2) :: ds), 0 ≤ p.2.2 := by
        by_cases hdd : d.2.2 - min c.2.2 d.2.2 ≤ dust
        · rw [if_pos hdd]; exact hds
        · rw [if_neg hdd]
          intro p hp
          rcases List.mem_cons.mp hp with rfl | hp2
          · simpa using sub_nonneg.mpr haw
          · exact hds p hp2
      have hrec := ih _ _ _ hts' hcre2 hdeb2 u
      have hkey : partyTotal (if d.2.2 - min c.2.2 d.2.2 ≤ dust then ds
            else (d.1, d.2.1, d.2.2 - min c.2.2 d.2.2) :: ds) u
          + (if d.1 = u then min c.2.2 d.2.2 else 0) ≤ partyTotal (d :: ds) u := by
        rw [partyTotal_cons]
        by_cases hdd : d.2.2 - min c.2.2 d.2.2 ≤ dust
        · rw [if_pos hdd]
          by_cases hdu : d.1 = u <;> simp [hdu] <;> linarith
        · rw [if_neg hdd, partyTotal_cons]
          by_cases hdu : d.1 = u <;> simp [hdu] <;> linarith
      by_cases he : dust < min c.2.2 d.2.2
      · rw [if_pos he]
        have hoc : outSum (mkTransfer d c (min c.2.2 d.2.2) :: ts') u =
            (if d.1 = u then min c.2.2 d.2.2 else 0) + outSum ts' u := by
          rw [outSum_cons]; rfl
        rw [hoc]
        linarith [hrec, hkey]
      · rw [if_neg he]
        have hite : (0 : ℚ) ≤ (if d.1 = u then min c.2.2 d.2.2 else 0) := by
          by_cases hdu : d.1 = u <;> simp [hdu, ha0]
        linarith [hrec, hkey]

theorem max0_le_shift {x y e : ℚ} (h : x ≤ y + e) (he : 0 ≤ e) :
    max x 0 ≤ max y 0 + e := by
  rcases le_total x 0 with h1 | h1
  · rw [max_eq_right h1]
    have := le_max_right y (0 : ℚ)
    linarith
  · rw [max_eq_left h1]
    have := le_max_left y (0 : ℚ)
    linarith

theorem max0_mono {x y : ℚ} (h : x ≤ y) : max x 0 ≤ max y 0 :=
  max_le_max h le_rfl

theorem partyTotal_cons3 (x y : String) (q : ℚ) (l : List Party) (u : String) :
    partyTotal ((x, y, q) :: l) u = (if x = u then q else 0) + partyTotal l u :=
  partyTotal_cons _ _ _

theorem amountSum_cons3 (x y : String) (q : ℚ) (l : List Party) :
    amountSum ((x, y, q) :: l) = q + amountSum l :=
  amountSum_cons _ _

/-- Residual bound, creditor side: what remains undelivered of a creditor's
total is at most the input imbalance plus `2 · dust` per input entry. -/
theorem fuel_cre_residual :
    ∀ (n : Nat) (cre deb : List Party) (ts : List DebtSimplification),
      settleLoopFuel n cre deb = some ts →
      (∀ p ∈ cre, 0 ≤ p.2.2) → (∀ p ∈ deb, 0 ≤ p.2.2) →
      ∀ u, partyTotal cre u - inSum ts u ≤
        max (amountSum cre - amountSum deb) 0
          + 2 * dust * ((cre.length : ℚ) + (deb.length : ℚ)) := by
  intro n
  induction n with
  | zero =>
    intro cre deb ts h hcre hdeb u
    match cre, deb with
    | [], deb2 =>
      injection h with h2; subst h2
      rw [inSum_nil, partyTotal_nil]
      have h1 := le_max_right (amountSum ([] : List Party) - amountSum deb2) (0 : ℚ)
      have h2 : (0 : ℚ) ≤ 2 * dust *
          (((([] : List Party)).length : ℚ) + (deb2.length : ℚ)) :=
        mul_nonneg (mul_nonneg (by norm_num) (le_of_lt dust_pos)) (by positivity)
      linarith
    | c :: cs, [] =>
      injection h with h2; subst h2
      rw [inSum_nil]
      have h1 := partyTotal_le_amountSum hcre u
      have h2 := le_max_left (amountSum (c :: cs) - amountSum ([] : List Party)) (0 : ℚ)
      have h3 : (0 : ℚ) ≤ 2 * dust *
          (((c :: cs).length : ℚ) + ((([] : List Party)).length : ℚ)) :=
        mul_nonneg (mul_nonneg (by norm_num) (le_of_lt dust_pos)) (by positivity)
      have h4 : amountSum ([] : List Party) = 0 := amountSum_nil
      linarith
    | _ :: _, _ :: _ => exact Option.noConfusion h
  | succ n ih =>
    intro cre deb ts h hcre hdeb u
    match cre, deb with
    | [], deb2 =>
      injection h with h2; subst h2
      rw [inSum_nil, partyTotal_nil]
      have h1 := le_max_right (amountSum ([] : List Party) - amountSum deb2) (0 : ℚ)
      have h2 : (0 : ℚ) ≤ 2 * dust *
          (((([] : List Party)).length : ℚ) + (deb2.length : ℚ)) :=
        mul_nonneg (mul_nonneg (by norm_num) (le_of_lt dust_pos)) (by positivity)
      linarith
    | c :: cs, [] =>
      injection h with h2; subst h2
      rw [inSum_nil]
      have h1 := partyTotal_le_amountSum hcre u
      have h2 := le_max_left (amountSum (c :: cs) - amountSum ([] : List Party)) (0 : ℚ)
      have h3 : (0 : ℚ) ≤ 2 * dust *
          (((c :: cs).length : ℚ) + ((([] : List Party)).length : ℚ)) :=
        mul_nonneg (mul_nonneg (by norm_num) (le_of_lt dust_pos)) (by positivity)
      have h4 : amountSum ([] : List Party) = 0 := amountSum_nil
      linarith
    | c :: cs, d :: ds =>
      rw [settleLoopFuel_succ] at h
      rcases Option.map_eq_some'.mp h with ⟨ts', hts', rfl⟩
      have hq : 0 ≤ c.2.2 := hcre c (List.mem_cons_self c cs)
      have hw : 0 ≤ d.2.2 := hdeb d (List.mem_cons_self d ds)
      have ha0 : 0 ≤ min c.2.2 d.2.2 := le_min hq hw
      have haq : min c.2.2 d.2.2 ≤ c.2.2 := min_le_left _ _
      have haw : min c.2.2 d.2.2 ≤ d.2.2 := min_le_right _ _
      have hcs : ∀ p ∈ cs, 0 ≤ p.2.2 :=
        fun p hp => hcre p (List.mem_cons_of_mem c hp)
      have hds : ∀ p ∈ ds, 0 ≤ p.2.2 :=
        fun p hp => hdeb p (List.mem_cons_of_mem d hp)
      have hlow : (if c.1 = u then min c.2.2 d.2.2 else 0) - dust + inSum ts' u ≤
          inSum (if dust < min c.2.2 d.2.2 then
            mkTransfer d c (min c.2.2 d.2.2) :: ts' else ts') u := by
        by_cases he : dust < min c.2.2 d.2.2
        · rw [if_pos he]
          have hic : inSum (mkTransfer d c (min c.2.2 d.2.2) :: ts') u =
              (if c.1 = u then min c.2.2 d.2.2 else 0) + inSum ts' u := by
            rw [inSum_cons]; rfl
          rw [hic]
          linarith [dust_pos]
        · rw [if_neg he]
          push_neg at he
          by_cases hcu : c.1 = u
          · rw [if_pos hcu]; linarith
          · rw [if_neg hcu]; linarith [dust_pos]
      rw [partyTotal_cons, amountSum_cons, amountSum_cons]
      simp only [List.length_cons]
      push_cast
      by_cases hcc : c.2.2 - min c.2.2 d.2.2 ≤ dust
      · by_cases hdd : d.2.2 - min c.2.2 d.2.2 ≤ dust
        · rw [if_pos hcc, if_pos hdd] at hts'
          have hrec := ih _ _ _ hts' hcs hds u
          have hmax : max (amountSum cs - amountSum ds) 0 ≤
              max (c.2.2 + amountSum cs - (d.2.2 + amountSum ds)) 0
                + (d.2.2 - min c.2.2 d.2.2) :=
            max0_le_shift (by linarith) (by linarith)
          by_cases hcu : c.1 = u
          · rw [if_pos hcu] at hlow ⊢; linarith [dust_pos]
          · rw [if_neg hcu] at hlow ⊢; linarith [dust_pos]
        · rw [if_pos hcc, if_neg hdd] at hts'
          have hds2 : ∀ p ∈ (d.1, d.2.1, d.2.2 - min c.2.2 d.2.2) :: ds,
              0 ≤ p.2.2 := by
            intro p hp
            rcases List.mem_cons.mp hp with rfl | hp2
            · simpa using sub_nonneg.mpr haw
            · exact hds p hp2
          have hrec := ih _ _ _ hts' hcs hds2 u
          rw [amountSum_cons3] at hrec
          simp only [List.length_cons] at hrec
          push_cast at hrec
          have hmax : max (amountSum cs - (d.2.2 - min c.2.2 d.2.2 + amountSum ds)) 0 ≤
              max (c.2.2 + amountSum cs - (d.2.2 + amountSum ds)) 0 :=
            max0_mono (by linarith)
          by_cases hcu : c.1 = u
          · rw [if_pos hcu] at hlow ⊢; linarith [dust_pos]
          · rw [if_neg hcu] at hlow ⊢; linarith [dust_pos]
      · have hdd : d.2.2 - min c.2.2 d.2.2 ≤ dust :=
          (min_side_dust c.2.2 d.2.2).resolve_left hcc
        have haw2 : min c.2.2 d.2.2 = d.2.2 := by
          rcases min_choice c.2.2 d.2.2 with hm | hm
          · exfalso
            apply hcc
            rw [hm, sub_self]
            exact le_of_lt dust_pos
          · exact hm
        rw [if_neg hcc, if_pos hdd] at hts'
        have hcs2 : ∀ p ∈ (c.1, c.2.1, c.2.2 - min c.2.2 d.2.2) :: cs,
            0 ≤ p.2.2 := by
          intro p hp
          rcases List.mem_cons.mp hp with rfl | hp2
          · simpa using sub_nonneg.mpr haq
          · exact hcs p hp2
        have hrec := ih _ _ _ hts' hcs2 hds u
        rw [amountSum_cons3, partyTotal_cons3] at hrec
        simp only [List.length_cons] at hrec
        push_cast at hrec
        have heq : c.2.2 - min c.2.2 d.2.2 + amountSum cs - amountSum ds
            = c.2.2 + amountSum cs - (d.2.2 + amountSum ds) := by
          linarith [haw2]
        rw [heq] at hrec
        by_cases hcu : c.1 = u
        · rw [if_pos hcu] at hlow hrec ⊢; linarith [dust_pos]
        · rw [if_neg hcu] at hlow hrec ⊢; linarith [dust_pos]

/-- Residual bound, debtor side: what remains unpaid of a debtor's total is
at most the input imbalance plus `2 · dust` per input entry. -/
theorem fuel_deb_residual :
    ∀ (n : Nat) (cre deb : List Party) (ts : List DebtSimplification),
      settleLoopFuel n cre deb = some ts →
      (∀ p ∈ cre, 0 ≤ p.2.2) → (∀ p ∈ deb, 0 ≤ p.2.2) →
      ∀ u, partyTotal deb u - outSum ts u ≤
        max (amountSum deb - amountSum cre) 0
          + 2 * dust * ((cre.length : ℚ) + (deb.length : ℚ)) := by
  intro n
  induction n with
  | zero =>
    intro cre deb ts h hcre hdeb u
    match cre, deb with
    | [], deb2 =>
      injection h with h2; subst h2
      rw [outSum_nil]
      have h1 := partyTotal_le_amountSum hdeb u
      have h2 := le_max_left (amountSum deb2 - amountSum ([] : List Party)) (0 : ℚ)
      have h3 : (0 : ℚ) ≤ 2 * dust *
          (((([] : List Party)).length : ℚ) + (deb2.length : ℚ)) :=
        mul_nonneg (mul_nonneg (by norm_num) (le_of_lt dust_pos)) (by positivity)
      have h4 : amountSum ([] : List Party) = 0 := amountSum_nil
      linarith
    | c :: cs, [] =>
      injection h with h2; subst h2
      rw [outSum_nil, partyTotal_nil]
      have h1 := le_max_right (amountSum ([] : List Party) - amountSum (c :: cs)) (0 : ℚ)
      have h2 : (0 : ℚ) ≤ 2 * dust *
          (((c :: cs).length : ℚ) + ((([] : List Party)).length : ℚ)) :=
        mul_nonneg (mul_nonneg (by norm_num) (le_of_lt dust_pos)) (by positivity)
      linarith
    | _ :: _, _ :: _ => exact Option.noConfusion h
  | succ n ih =>
    intro cre deb ts h hcre hdeb u
    match cre, deb with
    | [], deb2 =>
      injection h with h2; subst h2
      rw [outSum_nil]
      have h1 := partyTotal_le_amountSum hdeb u
      have h2 := le_max_left (amountSum deb2 - amountSum ([] : List Party)) (0 : ℚ)
      have h3 : (0 : ℚ) ≤ 2 * dust *
          (((([] : List Party)).length : ℚ) + (deb2.length : ℚ)) :=
        mul_nonneg (mul_nonneg (by norm_num) (le_of_lt dust_pos)) (by positivity)
      have h4 : amountSum ([] : List Party) = 0 := amountSum_nil
      linarith
    | c :: cs, [] =>
      injection h with h2; subst h2
      rw [outSum_nil, partyTotal_nil]
      have h1 := le_max_right (amountSum ([] : List Party) - amountSum (c :: cs)) (0 : ℚ)
      have h2 : (0 : ℚ) ≤ 2 * dust *
          (((c :: cs).length : ℚ) + ((([] : List Party)).length : ℚ)) :=
        mul_nonneg (mul_nonneg (by norm_num) (le_of_lt dust_pos)) (by positivity)
      linarith
    | c :: cs, d :: ds =>
      rw [settleLoopFuel_succ] at h
      rcases Option.map_eq_some'.mp h with ⟨ts', hts', rfl⟩
      have hq : 0 ≤ c.2.2 := hcre c (List.mem_cons_self c cs)
      have hw : 0 ≤ d.2.2 := hdeb d (List.mem_cons_self d ds)
      have ha0 : 0 ≤ min c.2.2 d.2.2 := le_min hq hw
      have haq : min c.2.2 d.2.2 ≤ c.2.2 := min_le_left _ _
      have haw : min c.2.2 d.2.2 ≤ d.2.2 := min_le_right _ _
      have hcs : ∀ p ∈ cs, 0 ≤ p.2.2 :=
        fun p hp => hcre p (List.mem_cons_of_mem c hp)
      have hds : ∀ p ∈ ds, 0 ≤ p.2.2 :=
        fun p hp => hdeb p (List.mem_cons_of_mem d hp)
      have hlow : (if d.1 = u then min c.2.2 d.2.2 else 0) - dust + outSum ts' u ≤
          outSum (if dust < min c.2.2 d.2.2 then
            mkTransfer d c (min c.2.2 d.2.2) :: ts' else ts') u := by
        by_cases he : dust < min c.2.2 d.2.2
        · rw [if_pos he]
          have hoc : outSum (mkTransfer d c (min c.2.2 d.2.2) :: ts') u =
              (if d.1 = u then min c.2.2 d.2.2 else 0) + outSum ts' u := by
            rw [outSum_cons]; rfl
          rw [hoc]
          linarith [dust_pos]
        · rw [if_neg he]
          push_neg at he
          by_cases hdu : d.1 = u
          · rw [if_pos hdu]; linarith
          · rw [if_neg hdu]; linarith [dust_pos]
      rw [partyTotal_cons, amountSum_cons, amountSum_cons]
      simp only [List.length_cons]
      push_cast
      by_cases hcc : c.2.2 - min c.2.2 d.2.2 ≤ dust
      · by_cases hdd : d.2.2 - min c.2.2 d.2.2 ≤ dust
        · rw [if_pos hcc, if_pos hdd] at hts'
          have hrec := ih _ _ _ hts' hcs hds u
          have hmax : max (amountSum ds - amountSum cs) 0 ≤
              max (d.2.2 + amountSum ds - (c.2.2 + amountSum cs)) 0
                + (c.2.2 - min c.2.2 d.2.2) :=
            max0_le_shift (by linarith) (by linarith)
          by_cases hdu : d.1 = u
          · rw [if_pos hdu] at hlow ⊢; linarith [dust_pos]
          · rw [if_neg hdu] at hlow ⊢; linarith [dust_pos]
        · rw [if_pos hcc, if_neg hdd] at hts'
          have haq2 : min c.2.2 d.2.2 = c.2.2 := by
            rcases min_choice c.2.2 d.2.2 with hm | hm
            · exact hm
            · exfalso
              apply hdd
              rw [hm, sub_self]
              exact le_of_lt dust_pos
          have hds2 : ∀ p ∈ (d.1, d.2.1, d.2.2 - min c.2.2 d.2.2) :: ds,
              0 ≤ p.2.2 := by
            intro p hp
            rcases List.mem_cons.mp hp with rfl | hp2
            · simpa using sub_nonneg.mpr haw
            · exact hds p hp2
          have hrec := ih _ _ _ hts' hcs hds2 u
          rw [amountSum_cons3, partyTotal_cons3] at hrec
          simp only [List.length_cons] at hrec
          push_cast at hrec
          have heq : d.2.2 - min c.2.2 d.2.2 + amountSum ds - amountSum cs
              = d.2.2 + amountSum ds - (c.2.2 + amountSum cs) := by
            linarith [haq2]
          rw [heq] at hrec
          by_cases hdu : d.1 = u
          · rw [if_pos hdu] at hlow hrec ⊢; linarith [dust_pos]
          · rw [if_neg hdu] at hlow hrec ⊢; linarith [dust_pos]
      · have hdd : d.2.2 - min c.2.2 d.2.2 ≤ dust :=
          (min_side_dust c.2.2 d.2.2).resolve_left hcc
        have haw2 : min c.2.2 d.2.2 = d.2.2 := by
          rcases min_choice c.2.2 d.2.2 with hm | hm
          · exfalso
            apply hcc
            rw [hm, sub_self]
            exact le_of_lt dust_pos
          · exact hm
        rw [if_neg hcc, if_pos hdd] at hts'
        have hcs2 : ∀ p ∈ (c.1, c.2.1, c.2.2 - min c.2.2 d.2.2) :: cs,
            0 ≤ p.2.2 := by
          intro p hp
          rcases List.mem_cons.mp hp with rfl | hp2
          · simpa using sub_nonneg.mpr haq
          · exact hcs p hp2
        have hrec := ih _ _ _ hts' hcs2 hds u
        rw [amountSum_cons3] at hrec
        simp only [List.length_cons] at hrec
        push_cast at hrec
        have heq : amountSum ds - (c.2.2 - min c.2.2 d.2.2 + amountSum cs)
            = d.2.2 + amountSum ds - (c.2.2 + amountSum cs) := by
          linarith [haw2]
        rw [heq] at hrec
        by_cases hdu : d.1 = u
        · rw [if_pos hdu] at hlow ⊢; linarith [dust_pos]
        · rw [if_neg hdu] at hlow ⊢; linarith [dust_pos]

/-! ### Relating the sorted creditor/debtor lists to the balances -/

theorem amountSum_perm {l m : List Party} (h : l.Perm m) :
    amountSum l = amountSum m :=
  sumBy_perm h _

theorem partyTotal_perm {l m : List Party} (h : l.Perm m) (u : String) :
    partyTotal l u = partyTotal m u :=
  sumBy_perm (h.filter _) _

theorem creditorsOf_nonneg (bs : List BalanceResponse) :
    ∀ p ∈ creditorsOf bs, 0 ≤ p.2.2 := by
  intro p hp
  rw [creditorsOf, (sortByAmountDesc_perm _).mem_iff] at hp
  rcases List.mem_map.mp hp with ⟨b, hb, rfl⟩
  have := List.mem_filter.mp hb
  simp only [decide_eq_true_eq] at this
  exact le_of_lt this.2

theorem debtorsOf_nonneg (bs : List BalanceResponse) :
    ∀ p ∈ debtorsOf bs, 0 ≤ p.2.2 := by
  intro p hp
  rw [debtorsOf, (sortByAmountDesc_perm _).mem_iff] at hp
  rcases List.mem_map.mp hp with ⟨b, hb, rfl⟩
  have := List.mem_filter.mp hb
  simp only [decide_eq_true_eq] at this
  simpa using le_of_lt this.2

theorem amountSum_creditorsOf (bs : List BalanceResponse) :
    amountSum (creditorsOf bs) =
      sumBy (bs.filter (fun b => 0 < b.balance_inr)) (fun b => b.balance_inr) := by
  rw [creditorsOf, amountSum_perm (sortByAmountDesc_perm _), amountSum, sumBy_map]

theorem amountSum_debtorsOf (bs : List BalanceResponse) :
    amountSum (debtorsOf bs) =
      sumBy (bs.filter (fun b => b.balance_inr < 0)) (fun b => -b.balance_inr) := by
  rw [debtorsOf, amountSum_perm (sortByAmountDesc_perm _), amountSum, sumBy_map]

theorem partyTotal_creditorsOf (bs : List BalanceResponse) (u : String) :
    partyTotal (creditorsOf bs) u =
      sumBy ((bs.filter (fun b => 0 < b.balance_inr)).filter
        (fun b => b.user_id = u)) (fun b => b.balance_inr) := by
  rw [creditorsOf, partyTotal_perm (sortByAmountDesc_perm _), partyTotal,
    List.map_filter, sumBy_map]
  rfl

theorem partyTotal_debtorsOf (bs : List BalanceResponse) (u : String) :
    partyTotal (debtorsOf bs) u =
      sumBy ((bs.filter (fun b => b.balance_inr < 0)).filter
        (fun b => b.user_id = u)) (fun b => -b.balance_inr) := by
  rw [debtorsOf, partyTotal_perm (sortByAmountDesc_perm _), partyTotal,
    List.map_filter, sumBy_map]
  rfl

theorem mem_fst_creditorsOf {bs : List BalanceResponse} {u : String} :
    u ∈ (creditorsOf bs).map (fun p => p.1) ↔
      ∃ b ∈ bs, 0 < b.balance_inr ∧ b.user_id = u := by
  rw [creditorsOf, ((sortByAmountDesc_perm _).map _).mem_iff]
  simp [List.mem_filter, eq_comm]
  constructor
  · rintro ⟨b, ⟨hb, hpos⟩, rfl⟩
    exact ⟨b, hb, hpos, rfl⟩
  · rintro ⟨b, hb, hpos, rfl⟩
    exact ⟨b, ⟨hb, hpos⟩, rfl⟩

theorem mem_fst_debtorsOf {bs : List BalanceResponse} {u : String} :
    u ∈ (debtorsOf bs).map (fun p => p.1) ↔
      ∃ b ∈ bs, b.balance_inr < 0 ∧ b.user_id = u := by
  rw [debtorsOf, ((sortByAmountDesc_perm _).map _).mem_iff]
  simp [List.mem_filter, eq_comm]
  constructor
  · rintro ⟨b, ⟨hb, hpos⟩, rfl⟩
    exact ⟨b, hb, hpos, rfl⟩
  · rintro ⟨b, hb, hpos, rfl⟩
    exact ⟨b, ⟨hb, hpos⟩, rfl⟩

theorem inSum_eq_zero {ts : List DebtSimplification} {u : String}
    (h : ∀ t ∈ ts, t.to_user_id ≠ u) : inSum ts u = 0 := by
  rw [inSum, List.filter_eq_nil_iff.mpr (by intro t ht; simp [h t ht])]
  rfl

theorem outSum_eq_zero {ts : List DebtSimplification} {u : String}
    (h : ∀ t ∈ ts, t.from_user_id ≠ u) : outSum ts u = 0 := by
  rw [outSum, List.filter_eq_nil_iff.mpr (by intro t ht; simp [h t ht])]
  rfl

theorem sumBy_sign_split (bs : List BalanceResponse) :
    sumBy bs (fun b => b.balance_inr) =
      sumBy (bs.filter (fun b => 0 < b.balance_inr)) (fun b => b.balance_inr)
      + sumBy (bs.filter (fun b => b.balance_inr < 0)) (fun b => b.balance_inr) := by
  induction bs with
  | nil => simp [sumBy_nil]
  | cons b bs ih =>
    rw [sumBy_cons]
    rcases lt_trichotomy b.balance_inr 0 with h | h | h
    · rw [List.filter_cons_of_neg (by simp; linarith),
        List.filter_cons_of_pos (by simp [h]), sumBy_cons]
      linarith
    · rw [List.filter_cons_of_neg (by simp; linarith),
        List.filter_cons_of_neg (by simp; linarith)]
      linarith
    · rw [List.filter_cons_of_pos (by simp [h]),
        List.filter_cons_of_neg (by simp; linarith), sumBy_cons]
      linarith

theorem length_sign_split (bs : List BalanceResponse) :
    (bs.filter (fun b => 0 < b.balance_inr)).length
      + (bs.filter (fun b => b.balance_inr < 0)).length
      = (bs.filter (fun b => b.balance_inr ≠ 0)).length := by
  induction bs with
  | nil => rfl
  | cons b bs ih =>
    rcases lt_trichotomy b.balance_inr 0 with h | h | h
    · rw [List.filter_cons_of_neg (by simp; linarith),
        List.filter_cons_of_pos (by simp [h]),
        List.filter_cons_of_pos (by simp [ne_of_lt h])]
      simp only [List.length_cons]
      omega
    · rw [List.filter_cons_of_neg (by simp; linarith),
        List.filter_cons_of_neg (by simp; linarith),
        List.filter_cons_of_neg (by simp [h])]
      exact ih
    · rw [List.filter_cons_of_pos (by simp [h]),
        List.filter_cons_of_neg (by simp; linarith),
        List.filter_cons_of_pos (by simp [(ne_of_lt h).symm])]
      simp only [List.length_cons]
      omega

theorem creditorsOf_length (bs : List BalanceResponse) :
    (creditorsOf bs).length = (bs.filter (fun b => 0 < b.balance_inr)).length := by
  rw [creditorsOf, sortByAmountDesc_length, List.length_map]

theorem debtorsOf_length (bs : List BalanceResponse) :
    (debtorsOf bs).length = (bs.filter (fun b => b.balance_inr < 0)).length := by
  rw [debtorsOf, sortByAmountDesc_length, List.length_map]

/-- With duplicate-free user ids, the balances of one id form a singleton. -/
theorem filter_uid_single {bs : List BalanceResponse}
    (hnd : (bs.map (fun b => b.user_id)).Nodup) {b : BalanceResponse}
    (hb : b ∈ bs) :
    bs.filter (fun x => x.user_id = b.user_id) = [b] := by
  induction bs with
  | nil => cases hb
  | cons y ys ih =>
    rw [List.map_cons, List.nodup_cons] at hnd
    rcases List.mem_cons.mp hb with rfl | hb2
    · rw [List.filter_cons_of_pos (by simp)]
      have : ys.filter (fun x => x.user_id = b.user_id) = [] := by
        rw [List.filter_eq_nil_iff]
        intro x hx
        simp only [decide_eq_true_eq]
        intro he
        exact hnd.1 (he ▸ List.mem_map_of_mem (fun b' => b'.user_id) hx)
      rw [this]
    · have hne : ¬ y.user_id = b.user_id := by
        intro he
        exact hnd.1 (he ▸ List.mem_map_of_mem (fun b' => b'.user_id) hb2)
      rw [List.filter_cons_of_neg (by simp [hne])]
      exact ih hnd.2 hb2

theorem sumBy_neg (l : List α) (f : α → ℚ) :
    sumBy l (fun x => -f x) = -sumBy l f := by
  induction l with
  | nil => simp [sumBy_nil]
  | cons x l ih => rw [sumBy_cons, sumBy_cons, ih]; ring

theorem simplify_fuel_spec (bs : List BalanceResponse) :
    settleLoopFuel ((creditorsOf bs).length + (debtorsOf bs).length)
      (creditorsOf bs) (debtorsOf bs) = some (simplify_debts bs) := by
  rw [simplify_debts]
  exact settleLoopFuel_complete _ _ _ le_rfl

theorem balance_zero_sum_split {bs : List BalanceResponse}
    (hzero : sumBy bs (fun b => b.balance_inr) = 0) :
    amountSum (creditorsOf bs) = amountSum (debtorsOf bs) := by
  rw [amountSum_creditorsOf, amountSum_debtorsOf, sumBy_neg]
  have h := sumBy_sign_split bs
  linarith

theorem parties_length_le (bs : List BalanceResponse) :
    (creditorsOf bs).length + (debtorsOf bs).length ≤ bs.length := by
  rw [creditorsOf_length, debtorsOf_length, length_sign_split]
  exact bs.length_filter_le _

/-- Claim C2 (amended): for every list of balances with pairwise distinct
user ids whose amounts sum to zero, applying every transfer returned by
`simplify_debts` (adding to the debtor's net what it pays, subtracting from
the creditor's net what it receives) leaves every user's net position
within `2 · 0.01 · n` of zero, where `n` is the number of balances. The
per-user `0.01` bound of the original claim fails because the loop
decrements its bookkeeping by matched amounts it declines to emit as
transfers (dust), and such drops can accumulate across users. -/
theorem simplify_debts_residual_bound (balances : List BalanceResponse)
    (hnd : (balances.map (fun b => b.user_id)).Nodup)
    (hzero : sumBy balances (fun b => b.balance_inr) = 0) :
    ∀ b ∈ balances,
      |netAfter balances (simplify_debts balances) b.user_id| ≤
        2 * dust * (balances.length : ℚ) := by
  intro b hb
  have hfuel := simplify_fuel_spec balances
  have hcN := creditorsOf_nonneg balances
  have hdN := debtorsOf_nonneg balances
  have hbal := balance_zero_sum_split hzero
  have hlenQ : ((creditorsOf balances).length : ℚ)
      + ((debtorsOf balances).length : ℚ) ≤ (balances.length : ℚ) := by
    exact_mod_cast parties_length_le balances
  have h2d : (0 : ℚ) ≤ 2 * dust := by linarith [dust_pos]
  have hdustlen : 2 * dust * (((creditorsOf balances).length : ℚ)
        + ((debtorsOf balances).length : ℚ))
      ≤ 2 * dust * (balances.length : ℚ) :=
    mul_le_mul_of_nonneg_left hlenQ h2d
  have hrhs0 : (0 : ℚ) ≤ 2 * dust * (balances.length : ℚ) :=
    mul_nonneg h2d (by positivity)
  have hmaxc : max (amountSum (creditorsOf balances)
      - amountSum (debtorsOf balances)) 0 = 0 := by
    rw [hbal, sub_self, max_self]
  have hmaxd : max (amountSum (debtorsOf balances)
      - amountSum (creditorsOf balances)) 0 = 0 := by
    rw [hbal, sub_self, max_self]
  have hflt := filter_uid_single hnd hb
  have hself : sumBy (balances.filter (fun x => x.user_id = b.user_id))
      (fun x => x.balance_inr) = b.balance_inr := by
    rw [hflt, sumBy_cons, sumBy_nil, add_zero]
  have huniq : ∀ b2 ∈ balances, b2.user_id = b.user_id → b2 = b := by
    intro b2 hb2 huid
    have h3 : b2 ∈ balances.filter (fun x => x.user_id = b.user_id) :=
      List.mem_filter.mpr ⟨hb2, by simp [huid]⟩
    rw [hflt] at h3
    simpa using h3
  rcases lt_trichotomy b.balance_inr 0 with hsign | hsign | hsign
  · have hnotcre : ∀ t ∈ simplify_debts balances, t.to_user_id ≠ b.user_id := by
      intro t ht he
      have h2 := (fuel_ids _ _ _ _ hfuel t ht).1
      rw [he] at h2
      rcases mem_fst_creditorsOf.mp h2 with ⟨b2, hb2, hpos, huid⟩
      have hb2b := huniq b2 hb2 huid
      rw [hb2b] at hpos
      linarith
    have hin0 : inSum (simplify_debts balances) b.user_id = 0 :=
      inSum_eq_zero hnotcre
    have hPT : partyTotal (debtorsOf balances) b.user_id = -b.balance_inr := by
      rw [partyTotal_debtorsOf, List.filter_comm, hflt,
        List.filter_cons_of_pos (by simp [hsign]), List.filter_nil,
        sumBy_cons, sumBy_nil, add_zero]
    have hout_le := fuel_outSum_le _ _ _ _ hfuel hcN hdN b.user_id
    have hres := fuel_deb_residual _ _ _ _ hfuel hcN hdN b.user_id
    rw [hmaxd, zero_add] at hres
    rw [netAfter, hself, hin0, sub_zero]
    rw [hPT] at hout_le hres
    rw [abs_le]
    constructor
    · linarith
    · linarith
  · have hnotcre : ∀ t ∈ simplify_debts balances, t.to_user_id ≠ b.user_id := by
      intro t ht he
      have h2 := (fuel_ids _ _ _ _ hfuel t ht).1
      rw [he] at h2
      rcases mem_fst_creditorsOf.mp h2 with ⟨b2, hb2, hpos, huid⟩
      have hb2b := huniq b2 hb2 huid
      rw [hb2b] at hpos
      linarith
    have hnotdeb : ∀ t ∈ simplify_debts balances, t.from_user_id ≠ b.user_id := by
      intro t ht he
      have h2 := (fuel_ids _ _ _ _ hfuel t ht).2
      rw [he] at h2
      rcases mem_fst_debtorsOf.mp h2 with ⟨b2, hb2, hneg, huid⟩
      have hb2b := huniq b2 hb2 huid
      rw [hb2b] at hneg
      linarith
    have hin0 : inSum (simplify_debts balances) b.user_id = 0 :=
      inSum_eq_zero hnotcre
    have hout0 : outSum (simplify_debts balances) b.user_id = 0 :=
      outSum_eq_zero hnotdeb
    rw [netAfter, hself, hin0, hout0, hsign, add_zero, sub_zero, abs_zero]
    exact hrhs0
  · have hnotdeb : ∀ t ∈ simplify_debts balances, t.from_user_id ≠ b.user_id := by
      intro t ht he
      have h2 := (fuel_ids _ _ _ _ hfuel t ht).2
      rw [he] at h2
      rcases mem_fst_debtorsOf.mp h2 with ⟨b2, hb2, hneg, huid⟩
      have hb2b := huniq b2 hb2 huid
      rw [hb2b] at hneg
      linarith
    have hout0 : outSum (simplify_debts balances) b.user_id = 0 :=
      outSum_eq_zero hnotdeb
    have hPT : partyTotal (creditorsOf balances) b.user_id = b.balance_inr := by
      rw [partyTotal_creditorsOf, List.filter_comm, hflt,
        List.filter_cons_of_pos (by simp [hsign]), List.filter_nil,
        sumBy_cons, sumBy_nil, add_zero]
    have hin_le := fuel_inSum_le _ _ _ _ hfuel hcN hdN b.user_id
    have hres := fuel_cre_residual _ _ _ _ hfuel hcN hdN b.user_id
    rw [hmaxc, zero_add] at hres
    rw [netAfter, hself, hout0, add_zero]
    rw [hPT] at hin_le hres
    rw [abs_le]
    constructor
    · linarith
    · linarith

/-- Zero-sum balances on which the simplifier emits nothing: one creditor of
0.03 against three debtors of 0.01 each (every matched amount is at the dust
threshold and is dropped). -/
def cxBalances : List BalanceResponse :=
  [⟨"C", "C", 3/100, 3/100, "INR"⟩, ⟨"D1", "D1", -1/100, -1/100, "INR"⟩,
   ⟨"D2", "D2", -1/100, -1/100, "INR"⟩, ⟨"D3", "D3", -1/100, -1/100, "INR"⟩]

/-- Claim C2 (counterexample): a list of balances whose amounts sum to zero
on which `simplify_debts` leaves user "C" at net position 0.03, strictly
farther than 0.01 from zero — refuting the claim as stated. -/
theorem simplify_debts_within_dust_counterexample :
    sumBy cxBalances (fun b => b.balance_inr) = 0 ∧
    1/100 < |netAfter cxBalances (simplify_debts cxBalances) "C"| := by
  have hs : simplify_debts cxBalances = [] := simplify_debts_eval (by
    norm_num [simplify_debts_fueled, creditorsOf, debtorsOf, sortByAmountDesc,
      insertDesc, settleLoopFuel, cxBalances, dust, mkTransfer, min_def])
  constructor
  · norm_num [cxBalances, sumBy]
  · rw [hs]
    have hflt : cxBalances.filter (fun x => x.user_id = "C") =
        [⟨"C", "C", 3/100, 3/100, "INR"⟩] := rfl
    have h1 : netAfter cxBalances [] "C" = 3/100 := by
      rw [netAfter, inSum_nil, outSum_nil, hflt, sumBy_cons, sumBy_nil]
      norm_num
    rw [h1, abs_of_nonneg (by norm_num : (0 : ℚ) ≤ 3/100)]
    norm_num

/-- Balances used to witness the amended claim C2. -/
def wBalances : List BalanceResponse :=
  [⟨"A", "A", 1/2, 1/2, "INR"⟩, ⟨"B", "B", -1/2, -1/2, "INR"⟩]

/-- Witness for the amended claim C2 at a concrete zero-sum input. -/
theorem simplify_debts_residual_bound_witness :
    (wBalances.map (fun b => b.user_id)).Nodup ∧
    sumBy wBalances (fun b => b.balance_inr) = 0 ∧
    ∀ b ∈ wBalances,
      |netAfter wBalances (simplify_debts wBalances) b.user_id| ≤
        2 * dust * (wBalances.length : ℚ) :=
  ⟨by simp [wBalances], by norm_num [wBalances, sumBy],
    simplify_debts_residual_bound wBalances (by simp [wBalances])
      (by norm_num [wBalances, sumBy])⟩

/-- Claim C4: the number of transfers returned by `simplify_debts` is at
most `max 0 (N - 1)` where `N` is the number of non-zero balances. -/
theorem simplify_debts_transfer_count (balances : List BalanceResponse) :
    (simplify_debts balances).length ≤
      max 0 ((balances.filter (fun b => b.balance_inr ≠ 0)).length - 1) := by
  have h := fuel_length _ _ _ _ (simplify_fuel_spec balances)
  rw [creditorsOf_length, debtorsOf_length] at h
  have h2 := length_sign_split balances
  rw [Nat.zero_max]
  omega

/-- Claim C7: every `DebtSimplification` returned by `simplify_debts` has an
amount strictly greater than the dust threshold 0.01, hence strictly
positive; no transfer of 0.01 or below is ever emitted. -/
theorem simplify_debts_amount_pos (balances : List BalanceResponse) :
    ∀ t ∈ simplify_debts balances, dust < t.amount ∧ 0 < t.amount := by
  intro t ht
  have h := fuel_dust_lt _ _ _ _ (simplify_fuel_spec balances) t ht
  exact ⟨h, lt_trans dust_pos h⟩

/-- Balances used to witness claim C7. -/
def wPosBalances : List BalanceResponse :=
  [⟨"A", "A", 5, 5, "INR"⟩, ⟨"B", "B", -5, -5, "INR"⟩]

/-- Witness for claim C7: a concrete run that emits a transfer, whose amount
is above dust and positive. -/
theorem simplify_debts_amount_pos_witness :
    (⟨"B", "B", "A", "A", 5, "INR"⟩ : DebtSimplification) ∈
      simplify_debts wPosBalances ∧
    dust < (5 : ℚ) ∧ (0 : ℚ) < 5 := by
  have hs : simplify_debts wPosBalances = [⟨"B", "B", "A", "A", 5, "INR"⟩] :=
    simplify_debts_eval (by
      norm_num [simplify_debts_fueled, creditorsOf, debtorsOf, sortByAmountDesc,
        insertDesc, settleLoopFuel, wPosBalances, dust, mkTransfer, min_def])
  have hm : (⟨"B", "B", "A", "A", 5, "INR"⟩ : DebtSimplification) ∈
      simplify_debts wPosBalances := by
    rw [hs]
    exact List.mem_singleton.mpr rfl
  exact ⟨hm, simplify_debts_amount_pos wPosBalances _ hm⟩

/-- Claim C8: on every input the greedy cursor loop finishes within
`len(creditors) + len(debtors)` iterations (each iteration advances at least
one cursor) and returns a value — running `simplify_debts` through the
budgeted loop never exhausts the budget and agrees with the function. -/
theorem simplify_debts_total (balances : List BalanceResponse) :
    simplify_debts_fueled balances = some (simplify_debts balances) := by
  rw [simplify_debts_fueled]
  exact simplify_fuel_spec balances

theorem ite_decide (c : Prop) [Decidable c] (a b : ℚ) :
    (if decide c = true then a else b) = if c then a else b := by
  by_cases h : c <;> simp [h]

/-- The joined split rows sum to the non-deleted expense totals whenever the
splits of each non-deleted expense sum to that expense's amount. -/
theorem joinedSplits_sum (gid : String) (expenses : List Expense)
    (splits : List ExpenseSplit)
    (hsplit : ∀ e ∈ expenses, e.deleted_at = none →
      sumBy (splits.filter (fun s => s.expense_id = e.id)) (fun s => s.amount_inr)
        = e.amount_inr) :
    sumBy (joinedSplits gid expenses splits) (fun p => p.2)
      = sumBy (filteredExpenses gid expenses) (fun e => e.amount_inr) := by
  rw [joinedSplits, sumBy_flatMap]
  have h1 : ∀ s ∈ splits,
      sumBy (((filteredExpenses gid expenses).filter
          (fun e => e.id = s.expense_id)).map (fun _ => (s.user_id, s.amount_inr)))
        (fun p => p.2)
      = sumBy (filteredExpenses gid expenses)
          (fun e => if e.id = s.expense_id then s.amount_inr else 0) := by
    intro s _
    rw [sumBy_map, sumBy_filter]
    exact sumBy_congr (fun e _ => ite_decide _ _ _)
  rw [sumBy_congr h1, sumBy_comm]
  apply sumBy_congr
  intro e he
  have h2 : sumBy splits (fun s => if e.id = s.expense_id then s.amount_inr else 0)
      = sumBy (splits.filter (fun s => s.expense_id = e.id))
          (fun s => s.amount_inr) := by
    rw [sumBy_filter]
    apply sumBy_congr
    intro s _
    rw [ite_decide]
    by_cases hc : s.expense_id = e.id
    · rw [if_pos hc, if_pos hc.symm]
    · rw [if_neg hc, if_neg (fun h => hc h.symm)]
  rw [h2]
  have hmem := List.mem_filter.mp he
  simp only [decide_eq_true_eq] at hmem
  exact hsplit e hmem.1 hmem.2.2

/-- Claim C1: zero-sum invariant — whenever the splits of each non-deleted
expense sum to that expense's amount, the amounts of all balances returned
by `calculate_group_balances` sum to exactly zero. -/
theorem calculate_group_balances_zero_sum (gid : String)
    (members : List GroupMember) (users : List User) (expenses : List Expense)
    (splits : List ExpenseSplit) (settlements : List Settlement)
    (hsplit : ∀ e ∈ expenses, e.deleted_at = none →
      sumBy (splits.filter (fun s => s.expense_id = e.id)) (fun s => s.amount_inr)
        = e.amount_inr) :
    sumBy (calculate_group_balances gid members users expenses splits settlements)
      (fun b => b.balance_inr) = 0 := by
  rw [calculate_group_balances]
  by_cases hm : (activeMembers gid members).isEmpty
  · rw [if_pos hm]; rfl
  · rw [if_neg hm, sumBy_map]
    show sumBy (allUserIds gid members expenses splits settlements)
      (fun uid => balanceOf gid expenses splits settlements uid) = 0
    have hndK : (allUserIds gid members expenses splits settlements).Nodup := by
      rw [allUserIds]; exact List.nodup_dedup _
    have hmemP : ∀ e ∈ filteredExpenses gid expenses,
        e.payer_id ∈ allUserIds gid members expenses splits settlements := by
      intro e he
      rw [allUserIds, List.mem_dedup]
      simp only [List.mem_append, List.mem_map]
      exact Or.inl (Or.inl (Or.inl (Or.inr ⟨e, he, rfl⟩)))
    have hmemS : ∀ p ∈ joinedSplits gid expenses splits,
        p.1 ∈ allUserIds gid members expenses splits settlements := by
      intro p hp
      rw [allUserIds, List.mem_dedup]
      simp only [List.mem_append, List.mem_map]
      exact Or.inl (Or.inl (Or.inr ⟨p, hp, rfl⟩))
    have hmemO : ∀ st ∈ completedSettlements gid settlements,
        st.from_user_id ∈ allUserIds gid members expenses splits settlements := by
      intro st hst
      rw [allUserIds, List.mem_dedup]
      simp only [List.mem_append, List.mem_map]
      exact Or.inl (Or.inr ⟨st, hst, rfl⟩)
    have hmemI : ∀ st ∈ completedSettlements gid settlements,
        st.to_user_id ∈ allUserIds gid members expenses splits settlements := by
      intro st hst
      rw [allUserIds, List.mem_dedup]
      simp only [List.mem_append, List.mem_map]
      exact Or.inr ⟨st, hst, rfl⟩
    have hP := sumBy_partition (filteredExpenses gid expenses)
      (fun e => e.payer_id) hndK hmemP (fun e => e.amount_inr)
    have hS := sumBy_partition (joinedSplits gid expenses splits)
      (fun p => p.1) hndK hmemS (fun p => p.2)
    have hO := sumBy_partition (completedSettlements gid settlements)
      (fun st => st.from_user_id) hndK hmemO (fun st => st.amount_inr)
    have hI := sumBy_partition (completedSettlements gid settlements)
      (fun st => st.to_user_id) hndK hmemI (fun st => st.amount_inr)
    have hsplitsum := joinedSplits_sum gid expenses splits hsplit
    show sumBy (allUserIds gid members expenses splits settlements)
      (fun uid => payerTotal gid expenses uid - splitTotal gid expenses splits uid
        + settlementOutgoing gid settlements uid
        - settlementIncoming gid settlements uid) = 0
    rw [sumBy_sub, sumBy_add, sumBy_sub]
    show sumBy (allUserIds gid members expenses splits settlements)
        (fun k => sumBy ((filteredExpenses gid expenses).filter
          (fun e => e.payer_id = k)) (fun e => e.amount_inr))
      - sumBy (allUserIds gid members expenses splits settlements)
        (fun k => sumBy ((joinedSplits gid expenses splits).filter
          (fun p => p.1 = k)) (fun p => p.2))
      + sumBy (allUserIds gid members expenses splits settlements)
        (fun k => sumBy ((completedSettlements gid settlements).filter
          (fun st => st.from_user_id = k)) (fun st => st.amount_inr))
      - sumBy (allUserIds gid members expenses splits settlements)
        (fun k => sumBy ((completedSettlements gid settlements).filter
          (fun st => st.to_user_id = k)) (fun st => st.amount_inr)) = 0
    rw [hP, hS, hO, hI, hsplitsum]
    ring

/-- Characterization of the id set the aggregator ranges over. -/
theorem mem_allUserIds {gid : String} {members : List GroupMember}
    {expenses : List Expense} {splits : List ExpenseSplit}
    {settlements : List Settlement} {uid : String} :
    uid ∈ allUserIds gid members expenses splits settlements ↔
      (∃ m ∈ members, m.group_id = gid ∧ m.status = "active" ∧ m.user_id = uid) ∨
      (∃ e ∈ expenses, e.group_id = gid ∧ e.deleted_at = none ∧ e.payer_id = uid) ∨
      (∃ s ∈ splits, s.user_id = uid ∧ ∃ e ∈ expenses,
        e.id = s.expense_id ∧ e.group_id = gid ∧ e.deleted_at = none) ∨
      (∃ st ∈ settlements, st.group_id = gid ∧ st.status = "completed" ∧
        (st.from_user_id = uid ∨ st.to_user_id = uid)) := by
  rw [allUserIds, List.mem_dedup]
  simp only [List.mem_append, List.mem_map, activeMembers, filteredExpenses,
    joinedSplits, completedSettlements, List.mem_filter, List.mem_flatMap,
    decide_eq_true_eq]
  constructor
  · rintro ((((⟨m, ⟨hm1, hm2, hm3⟩, rfl⟩ | ⟨e, ⟨he1, he2, he3⟩, rfl⟩) |
        ⟨p, ⟨s, hs, hp⟩, rfl⟩) | ⟨st, ⟨h1, h2, h3⟩, rfl⟩) |
        ⟨st, ⟨h1, h2, h3⟩, rfl⟩)
    · exact Or.inl ⟨m, hm1, hm2, hm3, rfl⟩
    · exact Or.inr (Or.inl ⟨e, he1, he2, he3, rfl⟩)
    · rcases hp with ⟨e, ⟨⟨he1, he2, he3⟩, he4⟩, rfl⟩
      exact Or.inr (Or.inr (Or.inl ⟨s, hs, rfl, e, he1, he4, he2, he3⟩))
    · exact Or.inr (Or.inr (Or.inr ⟨st, h1, h2, h3, Or.inl rfl⟩))
    · exact Or.inr (Or.inr (Or.inr ⟨st, h1, h2, h3, Or.inr rfl⟩))
  · rintro (⟨m, hm1, hm2, hm3, hm4⟩ | ⟨e, he1, he2, he3, he4⟩ |
      ⟨s, hs1, hs2, e, he1, he2, he3, he4⟩ | ⟨st, h1, h2, h3, h4 | h4⟩)
    · exact Or.inl (Or.inl (Or.inl (Or.inl ⟨m, ⟨hm1, hm2, hm3⟩, hm4⟩)))
    · exact Or.inl (Or.inl (Or.inl (Or.inr ⟨e, ⟨he1, he2, he3⟩, he4⟩)))
    · exact Or.inl (Or.inl (Or.inr ⟨(s.user_id, s.amount_inr),
        ⟨s, hs1, e, ⟨⟨he1, he3, he4⟩, he2⟩, rfl⟩, hs2⟩))
    · exact Or.inl (Or.inr ⟨st, ⟨h1, h2, h3⟩, h4⟩)
    · exact Or.inr ⟨st, ⟨h1, h2, h3⟩, h4⟩

/-- A deleted expense referencing payer "A" in a group with no members. -/
def cxExpense : Expense := ⟨"e1", "g", "A", 100, none⟩

/-- Claim C3 (counterexample): with an empty member list the aggregator
returns `[]` (its empty-group early return) even though a non-deleted
expense of the group names payer "A", so the output id set is not the
stated union. -/
theorem calculate_group_balances_union_counterexample :
    "A" ∉ (calculate_group_balances "g" [] [] [cxExpense] [] []).map
      (fun b => b.user_id) ∧
    (∃ e ∈ [cxExpense], e.group_id = "g" ∧ e.deleted_at = none ∧
      e.payer_id = "A") := by
  constructor
  · have h : calculate_group_balances "g" [] [] [cxExpense] [] [] = [] := rfl
    rw [h]
    simp
  · exact ⟨cxExpense, List.mem_singleton.mpr rfl, rfl, rfl, rfl⟩

/-- Claim C3 (amended): provided the group has at least one active member,
the id set of the aggregator's output is exactly the union of the active
members, the payers of the group's non-deleted expenses, the users of splits
joined to them, and both parties of the group's completed settlements; and
every output entry carries the net balance of its user. Without an active
member the source returns `[]` regardless of historical activity, which
refutes the unconditional claim. -/
theorem calculate_group_balances_union_rule (gid : String)
    (members : List GroupMember) (users : List User) (expenses : List Expense)
    (splits : List ExpenseSplit) (settlements : List Settlement)
    (hm : activeMembers gid members ≠ []) :
    (∀ uid : String,
      uid ∈ (calculate_group_balances gid members users expenses splits
          settlements).map (fun b => b.user_id) ↔
        ((∃ m ∈ members, m.group_id = gid ∧ m.status = "active" ∧
            m.user_id = uid) ∨
         (∃ e ∈ expenses, e.group_id = gid ∧ e.deleted_at = none ∧
            e.payer_id = uid) ∨
         (∃ s ∈ splits, s.user_id = uid ∧ ∃ e ∈ expenses,
            e.id = s.expense_id ∧ e.group_id = gid ∧ e.deleted_at = none) ∨
         (∃ st ∈ settlements, st.group_id = gid ∧ st.status = "completed" ∧
            (st.from_user_id = uid ∨ st.to_user_id = uid)))) ∧
    (∀ b ∈ calculate_group_balances gid members users expenses splits settlements,
      b.balance_inr = balanceOf gid expenses splits settlements b.user_id) := by
  have hne : ¬ (activeMembers gid members).isEmpty = true := by
    rw [List.isEmpty_iff]
    exact hm
  constructor
  · intro uid
    rw [calculate_group_balances, if_neg hne, ← mem_allUserIds]
    constructor
    · intro h
      rcases List.mem_map.mp h with ⟨b, hb, rfl⟩
      rcases List.mem_map.mp hb with ⟨k, hk, rfl⟩
      exact hk
    · intro h
      exact List.mem_map.mpr ⟨_, List.mem_map.mpr ⟨uid, h, rfl⟩, rfl⟩
  · intro b hb
    rw [calculate_group_balances, if_neg hne] at hb
    rcases List.mem_map.mp hb with ⟨k, hk, rfl⟩
    rfl

/-- A group with one active member "A", used to witness the amended claim C3. -/
def uwMembers : List GroupMember := [⟨"g", "A", "active", ⟨"A", none, none⟩⟩]

/-- An expense paid by departed user "B", used to witness the amended claim C3. -/
def uwExpenses : List Expense := [⟨"e1", "g", "B", 50, none⟩]

/-- Witness for the amended claim C3 at a concrete input with one active
member and an expense of a user who left. -/
theorem calculate_group_balances_union_rule_witness :
    activeMembers "g" uwMembers ≠ [] ∧
    ((∀ uid : String,
      uid ∈ (calculate_group_balances "g" uwMembers [] uwExpenses [] []).map
          (fun b => b.user_id) ↔
        ((∃ m ∈ uwMembers, m.group_id = "g" ∧ m.status = "active" ∧
            m.user_id = uid) ∨
         (∃ e ∈ uwExpenses, e.group_id = "g" ∧ e.deleted_at = none ∧
            e.payer_id = uid) ∨
         (∃ s ∈ ([] : List ExpenseSplit), s.user_id = uid ∧ ∃ e ∈ uwExpenses,
            e.id = s.expense_id ∧ e.group_id = "g" ∧ e.deleted_at = none) ∨
         (∃ st ∈ ([] : List Settlement), st.group_id = "g" ∧
            st.status = "completed" ∧
            (st.from_user_id = uid ∨ st.to_user_id = uid)))) ∧
     (∀ b ∈ calculate_group_balances "g" uwMembers [] uwExpenses [] [],
        b.balance_inr = balanceOf "g" uwExpenses [] [] b.user_id)) :=
  ⟨by simp [activeMembers, uwMembers],
   calculate_group_balances_union_rule "g" uwMembers [] uwExpenses [] []
     (by simp [activeMembers, uwMembers])⟩

/-- A concrete input for the witness of claim C1: one expense of 100 split
60/40 over the payer and a second user. -/
def zwMembers : List GroupMember := [⟨"g", "A", "active", ⟨"A", none, none⟩⟩]

/-- Expense list for the claim C1 witness. -/
def zwExpenses : List Expense := [⟨"e1", "g", "A", 100, none⟩]

/-- Split list for the claim C1 witness. -/
def zwSplits : List ExpenseSplit := [⟨"e1", "A", 60⟩, ⟨"e1", "B", 40⟩]

/-- Witness for claim C1 at a concrete input whose splits sum to the expense
amount. -/
theorem calculate_group_balances_zero_sum_witness :
    (∀ e ∈ zwExpenses, e.deleted_at = none →
      sumBy (zwSplits.filter (fun s => s.expense_id = e.id))
        (fun s => s.amount_inr) = e.amount_inr) ∧
    sumBy (calculate_group_balances "g" zwMembers [] zwExpenses zwSplits [])
      (fun b => b.balance_inr) = 0 := by
  have hsplit : ∀ e ∈ zwExpenses, e.deleted_at = none →
      sumBy (zwSplits.filter (fun s => s.expense_id = e.id))
        (fun s => s.amount_inr) = e.amount_inr := by
    intro e he _
    rw [zwExpenses, List.mem_singleton] at he
    subst he
    have hflt : zwSplits.filter
        (fun s => s.expense_id = (⟨"e1", "g", "A", 100, none⟩ : Expense).id)
        = zwSplits := rfl
    rw [hflt]
    norm_num [zwSplits, sumBy]
  exact ⟨hsplit,
    calculate_group_balances_zero_sum "g" zwMembers [] zwExpenses zwSplits []
      hsplit⟩

/-! ### Settlement semantics (claim C5) -/

theorem completedSettlements_cons_of_not (gid : String) (st : Settlement)
    (settlements : List Settlement) (h : st.status ≠ "completed") :
    completedSettlements gid (st :: settlements)
      = completedSettlements gid settlements := by
  rw [completedSettlements, completedSettlements, List.filter_cons_of_neg]
  simp [h]

theorem settlementOutgoing_cons_completed {gid : String} {st : Settlement}
    (settlements : List Settlement) (h1 : st.status = "completed")
    (h2 : st.group_id = gid) (uid : String) :
    settlementOutgoing gid (st :: settlements) uid
      = (if st.from_user_id = uid then st.amount_inr else 0)
        + settlementOutgoing gid settlements uid := by
  rw [settlementOutgoing, settlementOutgoing, completedSettlements,
    completedSettlements, List.filter_cons_of_pos (by simp [h1, h2])]
  by_cases hf : st.from_user_id = uid
  · rw [List.filter_cons_of_pos (by simp [hf]), sumBy_cons, if_pos hf]
  · rw [List.filter_cons_of_neg (by simp [hf]), if_neg hf, zero_add]

theorem settlementIncoming_cons_completed {gid : String} {st : Settlement}
    (settlements : List Settlement) (h1 : st.status = "completed")
    (h2 : st.group_id = gid) (uid : String) :
    settlementIncoming gid (st :: settlements) uid
      = (if st.to_user_id = uid then st.amount_inr else 0)
        + settlementIncoming gid settlements uid := by
  rw [settlementIncoming, settlementIncoming, completedSettlements,
    completedSettlements, List.filter_cons_of_pos (by simp [h1, h2])]
  by_cases hf : st.to_user_id = uid
  · rw [List.filter_cons_of_pos (by simp [hf]), sumBy_cons, if_pos hf]
  · rw [List.filter_cons_of_neg (by simp [hf]), if_neg hf, zero_add]

/-- Claim C5: exactly the settlements with status `"completed"` contribute —
prepending a non-completed settlement leaves the aggregator's output
unchanged entirely, while prepending a completed settlement of the group
adds its amount to the `from_user`'s aggregated balance and subtracts it
from the `to_user`'s, leaving every other user unchanged. -/
theorem settlement_semantics (gid : String) (members : List GroupMember)
    (users : List User) (expenses : List Expense) (splits : List ExpenseSplit)
    (settlements : List Settlement) (st : Settlement) :
    (st.status ≠ "completed" →
      calculate_group_balances gid members users expenses splits
          (st :: settlements)
        = calculate_group_balances gid members users expenses splits
          settlements) ∧
    (st.status = "completed" → st.group_id = gid → ∀ uid : String,
      balanceOf gid expenses splits (st :: settlements) uid
        = balanceOf gid expenses splits settlements uid
          + (if st.from_user_id = uid then st.amount_inr else 0)
          - (if st.to_user_id = uid then st.amount_inr else 0)) := by
  constructor
  · intro h
    have hC := completedSettlements_cons_of_not gid st settlements h
    have hB : ∀ uid, balanceOf gid expenses splits (st :: settlements) uid
        = balanceOf gid expenses splits settlements uid := by
      intro uid
      rw [balanceOf, balanceOf, settlementOutgoing, settlementOutgoing,
        settlementIncoming, settlementIncoming, hC]
    have hU : allUserIds gid members expenses splits (st :: settlements)
        = allUserIds gid members expenses splits settlements := by
      rw [allUserIds, allUserIds, hC]
    rw [calculate_group_balances, calculate_group_balances, hU]
    by_cases hm : (activeMembers gid members).isEmpty
    · rw [if_pos hm, if_pos hm]
    · rw [if_neg hm, if_neg hm]
      apply List.map_congr_left
      intro uid _
      rw [hB uid]
  · intro h1 h2 uid
    rw [balanceOf, balanceOf, settlementOutgoing_cons_completed settlements h1 h2,
      settlementIncoming_cons_completed settlements h1 h2]
    ring

/-- Member list for the claim C5 witness. -/
def swMembers : List GroupMember := [⟨"g", "A", "active", ⟨"A", none, none⟩⟩]

/-- A pending settlement, used to witness the frame half of claim C5. -/
def swPending : Settlement := ⟨"g", "A", "B", 50, "pending"⟩

/-- A completed settlement, used to witness the additive half of claim C5. -/
def swCompleted : Settlement := ⟨"g", "A", "B", 50, "completed"⟩

/-- Witness for claim C5: a pending settlement leaves the concrete output
unchanged, and a completed settlement shifts the two parties' balances. -/
theorem settlement_semantics_witness :
    (swPending.status ≠ "completed" ∧
      calculate_group_balances "g" swMembers [] [] [] [swPending]
        = calculate_group_balances "g" swMembers [] [] [] []) ∧
    (swCompleted.status = "completed" ∧ swCompleted.group_id = "g" ∧
      ∀ uid : String,
        balanceOf "g" [] [] [swCompleted] uid
          = balanceOf "g" [] [] [] uid
            + (if swCompleted.from_user_id = uid then swCompleted.amount_inr
                else 0)
            - (if swCompleted.to_user_id = uid then swCompleted.amount_inr
                else 0)) :=
  ⟨⟨by simp [swPending],
    (settlement_semantics "g" swMembers [] [] [] [] swPending).1
      (by simp [swPending])⟩,
   ⟨rfl, rfl,
    (settlement_semantics "g" swMembers [] [] [] [] swCompleted).2 rfl rfl⟩⟩

/-! ### Deleted-expense frame property (claim C6) -/

theorem flatMap_nil_of_forall {l : List α} {g : α → List β}
    (h : ∀ x ∈ l, g x = []) : l.flatMap g = [] := by
  induction l with
  | nil => rfl
  | cons x l ih =>
    rw [List.flatMap_cons, h x (List.mem_cons_self x l),
      ih (fun y hy => h y (List.mem_cons_of_mem x hy)), List.nil_append]

theorem filteredExpenses_cons_deleted (gid : String) (e : Expense)
    (expenses : List Expense) (h : e.deleted_at ≠ none) :
    filteredExpenses gid (e :: expenses) = filteredExpenses gid expenses := by
  rw [filteredExpenses, filteredExpenses, List.filter_cons_of_neg]
  simp [h]

theorem joinedSplits_frame (gid : String) (e : Expense)
    (expenses : List Expense) (ss splits : List ExpenseSplit)
    (hdel : e.deleted_at ≠ none) (hss : ∀ s ∈ ss, s.expense_id = e.id)
    (hfresh : e.id ∉ expenses.map (fun e2 => e2.id)) :
    joinedSplits gid (e :: expenses) (ss ++ splits)
      = joinedSplits gid expenses splits := by
  rw [joinedSplits, joinedSplits, filteredExpenses_cons_deleted gid e expenses hdel,
    List.flatMap_append]
  have hnil : (ss.flatMap (fun s =>
      ((filteredExpenses gid expenses).filter
        (fun e2 => e2.id = s.expense_id)).map
        (fun _ => (s.user_id, s.amount_inr)))) = [] := by
    apply flatMap_nil_of_forall
    intro s hs
    rw [List.filter_eq_nil_iff.mpr, List.map_nil]
    intro e2 he2
    simp only [decide_eq_true_eq]
    intro heq
    apply hfresh
    rw [← hss s hs, ← heq]
    exact List.mem_map_of_mem _ (List.mem_of_mem_filter he2)
  rw [hnil, List.nil_append]

/-- Claim C6: a soft-deleted expense and its splits contribute nothing —
prepending a deleted expense (with a fresh id) and its splits leaves the
aggregator's output unchanged. -/
theorem deleted_expense_frame (gid : String) (members : List GroupMember)
    (users : List User) (expenses : List Expense) (splits : List ExpenseSplit)
    (settlements : List Settlement) (e : Expense) (ss : List ExpenseSplit)
    (hdel : e.deleted_at ≠ none) (hss : ∀ s ∈ ss, s.expense_id = e.id)
    (hfresh : e.id ∉ expenses.map (fun e2 => e2.id)) :
    calculate_group_balances gid members users (e :: expenses) (ss ++ splits)
        settlements
      = calculate_group_balances gid members users expenses splits settlements := by
  have hFE := filteredExpenses_cons_deleted gid e expenses hdel
  have hJS := joinedSplits_frame gid e expenses ss splits hdel hss hfresh
  have hB : ∀ uid, balanceOf gid (e :: expenses) (ss ++ splits) settlements uid
      = balanceOf gid expenses splits settlements uid := by
    intro uid
    rw [balanceOf, balanceOf, payerTotal, payerTotal, hFE, splitTotal,
      splitTotal, hJS]
  have hU : allUserIds gid members (e :: expenses) (ss ++ splits) settlements
      = allUserIds gid members expenses splits settlements := by
    rw [allUserIds, allUserIds, hFE, hJS]
  rw [calculate_group_balances, calculate_group_balances, hU]
  by_cases hm : (activeMembers gid members).isEmpty
  · rw [if_pos hm, if_pos hm]
  · rw [if_neg hm, if_neg hm]
    apply List.map_congr_left
    intro uid _
    rw [hB uid]

/-- Member list for the claim C6 witness. -/
def dwMembers : List GroupMember := [⟨"g", "A", "active", ⟨"A", none, none⟩⟩]

/-- Live expense list for the claim C6 witness. -/
def dwExpenses : List Expense := [⟨"e1", "g", "A", 100, none⟩]

/-- Live split list for the claim C6 witness. -/
def dwSplits : List ExpenseSplit := [⟨"e1", "A", 100⟩]

/-- A soft-deleted expense for the claim C6 witness. -/
def dwDeleted : Expense := ⟨"e2", "g", "B", 70, some "2024-01-01T00:00:00"⟩

/-- The deleted expense's splits for the claim C6 witness. -/
def dwDelSplits : List ExpenseSplit := [⟨"e2", "B", 70⟩]

/-- Witness for claim C6 at a concrete input. -/
theorem deleted_expense_frame_witness :
    dwDeleted.deleted_at ≠ none ∧
    (∀ s ∈ dwDelSplits, s.expense_id = dwDeleted.id) ∧
    dwDeleted.id ∉ dwExpenses.map (fun e2 => e2.id) ∧
    calculate_group_balances "g" dwMembers [] (dwDeleted :: dwExpenses)
        (dwDelSplits ++ dwSplits) []
      = calculate_group_balances "g" dwMembers [] dwExpenses dwSplits [] :=
  ⟨by simp [dwDeleted], by decide, by decide,
   deleted_expense_frame "g" dwMembers [] dwExpenses dwSplits [] dwDeleted
     dwDelSplits (by simp [dwDeleted]) (by decide) (by decide)⟩

/-! ### Per-user net balance across groups (claim C10) -/

/-- Claim C10: `calculate_user_net_balance` sums only over groups where the
user is currently an active member — it returns 0 for a user with no active
membership, and activity recorded in a group outside the user's active
groups (an expense with its splits, or a settlement) leaves the result
unchanged. -/
theorem user_net_balance_active_groups_only (uid : String)
    (members : List GroupMember) (expenses : List Expense)
    (splits : List ExpenseSplit) (settlements : List Settlement) :
    (activeGroupIds uid members = [] →
      calculate_user_net_balance uid members expenses splits settlements = 0) ∧
    (∀ (e : Expense) (ss : List ExpenseSplit),
      e.group_id ∉ activeGroupIds uid members →
      e.id ∉ expenses.map (fun e2 => e2.id) →
      (∀ s ∈ ss, s.expense_id = e.id) →
      calculate_user_net_balance uid members (e :: expenses) (ss ++ splits)
          settlements
        = calculate_user_net_balance uid members expenses splits settlements) ∧
    (∀ st : Settlement, st.group_id ∉ activeGroupIds uid members →
      calculate_user_net_balance uid members expenses splits (st :: settlements)
        = calculate_user_net_balance uid members expenses splits settlements) := by
  refine ⟨?_, ?_, ?_⟩
  · intro h
    rw [calculate_user_net_balance, h]
    rfl
  · intro e ss hgrp hfresh hss
    rw [calculate_user_net_balance, calculate_user_net_balance]
    by_cases hg : (activeGroupIds uid members).isEmpty
    · rw [if_pos hg, if_pos hg]
    · rw [if_neg hg, if_neg hg]
      have hPaid : (e :: expenses).filter (fun e2 => e2.payer_id = uid ∧
          e2.deleted_at = none ∧ e2.group_id ∈ activeGroupIds uid members)
          = expenses.filter (fun e2 => e2.payer_id = uid ∧
            e2.deleted_at = none ∧ e2.group_id ∈ activeGroupIds uid members) := by
        rw [List.filter_cons_of_neg]
        simp [hgrp]
      have hfun : (fun s : ExpenseSplit => ((e :: expenses).filter
            (fun e2 => e2.id = s.expense_id ∧ e2.deleted_at = none ∧
              e2.group_id ∈ activeGroupIds uid members)).map
            (fun _ => s.amount_inr))
          = (fun s : ExpenseSplit => (expenses.filter
            (fun e2 => e2.id = s.expense_id ∧ e2.deleted_at = none ∧
              e2.group_id ∈ activeGroupIds uid members)).map
            (fun _ => s.amount_inr)) := by
        funext s
        rw [List.filter_cons_of_neg]
        simp [hgrp]
      rw [hPaid, hfun, List.filter_append, List.flatMap_append]
      have hnil : ((ss.filter (fun s => s.user_id = uid)).flatMap
          (fun s : ExpenseSplit => (expenses.filter
            (fun e2 => e2.id = s.expense_id ∧ e2.deleted_at = none ∧
              e2.group_id ∈ activeGroupIds uid members)).map
            (fun _ => s.amount_inr))) = [] := by
        apply flatMap_nil_of_forall
        intro s hs
        rw [List.filter_eq_nil_iff.mpr, List.map_nil]
        intro e2 he2
        simp only [decide_eq_true_eq]
        intro heq
        apply hfresh
        rw [← hss s (List.mem_of_mem_filter hs), ← heq.1]
        exact List.mem_map_of_mem _ he2
      rw [hnil, List.nil_append]
  · intro st hgrp
    rw [calculate_user_net_balance, calculate_user_net_balance]
    by_cases hg : (activeGroupIds uid members).isEmpty
    · rw [if_pos hg, if_pos hg]
    · rw [if_neg hg, if_neg hg,
        List.filter_cons_of_neg (by simp [hgrp]),
        List.filter_cons_of_neg (by simp [hgrp])]

/-- Membership list for the claim C10 witness: "U" is active only in "g1". -/
def nwMembers : List GroupMember := [⟨"g1", "U", "active", ⟨"U", none, none⟩⟩]

/-- An expense of "U" in group "g2", where "U" is not an active member. -/
def nwExpense : Expense := ⟨"e9", "g2", "U", 80, none⟩

/-- A completed settlement in group "g2". -/
def nwSettlement : Settlement := ⟨"g2", "U", "V", 10, "completed"⟩

/-- Witness for claim C10 at concrete inputs. -/
theorem user_net_balance_active_groups_only_witness :
    (activeGroupIds "Z" nwMembers = [] ∧
      calculate_user_net_balance "Z" nwMembers [] [] [] = 0) ∧
    (nwExpense.group_id ∉ activeGroupIds "U" nwMembers ∧
      nwExpense.id ∉ ([] : List Expense).map (fun e2 => e2.id) ∧
      (∀ s ∈ [(⟨"e9", "U", 80⟩ : ExpenseSplit)], s.expense_id = nwExpense.id) ∧
      calculate_user_net_balance "U" nwMembers [nwExpense]
          ([⟨"e9", "U", 80⟩] ++ []) []
        = calculate_user_net_balance "U" nwMembers [] [] []) ∧
    (nwSettlement.group_id ∉ activeGroupIds "U" nwMembers ∧
      calculate_user_net_balance "U" nwMembers [] [] [nwSettlement]
        = calculate_user_net_balance "U" nwMembers [] [] []) :=
  ⟨⟨by decide,
    (user_net_balance_active_groups_only "Z" nwMembers [] [] []).1 (by decide)⟩,
   ⟨by decide, by decide, by decide,
    (user_net_balance_active_groups_only "U" nwMembers [] [] []).2.1 nwExpense
      [⟨"e9", "U", 80⟩] (by decide) (by decide) (by decide)⟩,
   ⟨by decide,
    (user_net_balance_active_groups_only "U" nwMembers [] [] []).2.2
      nwSettlement (by decide)⟩⟩

/-! ### The concrete three-member scenario (claim C9) -/

/-- Group members A, B, C of group "g". -/
def scMembers : List GroupMember :=
  [⟨"g", "A", "active", ⟨"A", none, none⟩⟩,
   ⟨"g", "B", "active", ⟨"B", none, none⟩⟩,
   ⟨"g", "C", "active", ⟨"C", none, none⟩⟩]

/-- A pays 300.00. -/
def scExpenses : List Expense := [⟨"e1", "g", "A", 300, none⟩]

/-- The 300.00 split equally three ways. -/
def scSplits : List ExpenseSplit :=
  [⟨"e1", "A", 100⟩, ⟨"e1", "B", 100⟩, ⟨"e1", "C", 100⟩]

/-- A completed settlement B→A of 100.00. -/
def scSettlements : List Settlement := [⟨"g", "B", "A", 100, "completed"⟩]

/-- Claim C9: in the three-member scenario, aggregation yields A=+200,
B=−100, C=−100 and the simplifier the two transfers B→A 100 and C→A 100;
after the completed settlement B→A of 100, aggregation yields A=+100, B=0,
C=−100 and the simplifier the single transfer C→A 100. -/
theorem three_member_scenario :
    calculate_group_balances "g" scMembers [] scExpenses scSplits []
      = [⟨"A", "A", 200, 200, "INR"⟩, ⟨"B", "B", -100, -100, "INR"⟩,
         ⟨"C", "C", -100, -100, "INR"⟩] ∧
    simplify_debts (calculate_group_balances "g" scMembers [] scExpenses
        scSplits [])
      = [⟨"B", "B", "A", "A", 100, "INR"⟩, ⟨"C", "C", "A", "A", 100, "INR"⟩] ∧
    calculate_group_balances "g" scMembers [] scExpenses scSplits scSettlements
      = [⟨"C", "C", -100, -100, "INR"⟩, ⟨"B", "B", 0, 0, "INR"⟩,
         ⟨"A", "A", 100, 100, "INR"⟩] ∧
    simplify_debts (calculate_group_balances "g" scMembers [] scExpenses
        scSplits scSettlements)
      = [⟨"C", "C", "A", "A", 100, "INR"⟩] := by
  have hids1 : allUserIds "g" scMembers scExpenses scSplits [] =
      ["A", "B", "C"] := rfl
  have hids2 : allUserIds "g" scMembers scExpenses scSplits scSettlements =
      ["C", "B", "A"] := rfl
  have hb1A : balanceOf "g" scExpenses scSplits [] "A" = 200 := by
    norm_num +decide [balanceOf, payerTotal, splitTotal, settlementOutgoing,
      settlementIncoming, completedSettlements, filteredExpenses, joinedSplits,
      scExpenses, scSplits, sumBy]
  have hb1B : balanceOf "g" scExpenses scSplits [] "B" = -100 := by
    norm_num +decide [balanceOf, payerTotal, splitTotal, settlementOutgoing,
      settlementIncoming, completedSettlements, filteredExpenses, joinedSplits,
      scExpenses, scSplits, sumBy]
  have hb1C : balanceOf "g" scExpenses scSplits [] "C" = -100 := by
    norm_num +decide [balanceOf, payerTotal, splitTotal, settlementOutgoing,
      settlementIncoming, completedSettlements, filteredExpenses, joinedSplits,
      scExpenses, scSplits, sumBy]
  have hb2A : balanceOf "g" scExpenses scSplits scSettlements "A" = 100 := by
    norm_num +decide [balanceOf, payerTotal, splitTotal, settlementOutgoing,
      settlementIncoming, completedSettlements, filteredExpenses, joinedSplits,
      scExpenses, scSplits, scSettlements, sumBy]
  have hb2B : balanceOf "g" scExpenses scSplits scSettlements "B" = 0 := by
    norm_num +decide [balanceOf, payerTotal, splitTotal, settlementOutgoing,
      settlementIncoming, completedSettlements, filteredExpenses, joinedSplits,
      scExpenses, scSplits, scSettlements, sumBy]
  have hb2C : balanceOf "g" scExpenses scSplits scSettlements "C" = -100 := by
    norm_num +decide [balanceOf, payerTotal, splitTotal, settlementOutgoing,
      settlementIncoming, completedSettlements, filteredExpenses, joinedSplits,
      scExpenses, scSplits, scSettlements, sumBy]
  have h1 : calculate_group_balances "g" scMembers [] scExpenses scSplits []
      = [⟨"A", "A", 200, 200, "INR"⟩, ⟨"B", "B", -100, -100, "INR"⟩,
         ⟨"C", "C", -100, -100, "INR"⟩] := by
    rw [calculate_group_balances, if_neg (by decide), hids1]
    simp only [List.map_cons, List.map_nil]
    rw [hb1A, hb1B, hb1C]
    rfl
  have h3 : calculate_group_balances "g" scMembers [] scExpenses scSplits
      scSettlements
      = [⟨"C", "C", -100, -100, "INR"⟩, ⟨"B", "B", 0, 0, "INR"⟩,
         ⟨"A", "A", 100, 100, "INR"⟩] := by
    rw [calculate_group_balances, if_neg (by decide), hids2]
    simp only [List.map_cons, List.map_nil]
    rw [hb2A, hb2B, hb2C]
    rfl
  have h2 : simplify_debts
      [(⟨"A", "A", 200, 200, "INR"⟩ : BalanceResponse),
       ⟨"B", "B", -100, -100, "INR"⟩, ⟨"C", "C", -100, -100, "INR"⟩]
      = [⟨"B", "B", "A", "A", 100, "INR"⟩, ⟨"C", "C", "A", "A", 100, "INR"⟩] :=
    simplify_debts_eval (by
      norm_num [simplify_debts_fueled, creditorsOf, debtorsOf, sortByAmountDesc,
        insertDesc, settleLoopFuel, dust, mkTransfer, min_def])
  have h4 : simplify_debts
      [(⟨"C", "C", -100, -100, "INR"⟩ : BalanceResponse),
       ⟨"B", "B", 0, 0, "INR"⟩, ⟨"A", "A", 100, 100, "INR"⟩]
      = [⟨"C", "C", "A", "A", 100, "INR"⟩] :=
    simplify_debts_eval (by
      norm_num [simplify_debts_fueled, creditorsOf, debtorsOf, sortByAmountDesc,
        insertDesc, settleLoopFuel, dust, mkTransfer, min_def])
  exact ⟨h1, by rw [h1]; exact h2, h3, by rw [h3]; exact h4⟩

end Baantlo
